import Mathlib

/-!
# Running median on two heaps: a verification development of `src/main.go`

The Go program keeps the lower half of a stream of ints in a max-heap and the
upper half in a min-heap, both driven by `container/heap`.

Embedding conventions.

* A Go slice `[]int` is a `List Int`; `h[i]` is `h.getD i 0` (every index the
  heap algorithms read is in range, so the default is never observed).
* Methods with a pointer receiver return the new state of the receiver.
* A Go run-time panic (index out of range on an empty heap) is `none`.
* Go's `int` is a 64-bit two's-complement integer: comparisons are those of
  `Int`, the one addition of the program (in `Median`) wraps with `wrap64`, and
  `/` is truncated division `Int.tdiv`.
* Loops of `container/heap` carry a fuel argument that the callers set to the
  length of the slice; `heap.up_fuel` and `heap.down_fuel` show that this amount
  never cuts a loop short.
-/

namespace MedianOnHeap

/-! ## Values -/

/-- A Go value of static type `any`, as far as `Insert` can tell values apart:
an `int`, or a value of some other dynamic type. -/
inductive GoAny where
  | int (v : Int)
  | str (s : String)
  | bool (b : Bool)
  | nil
  deriving DecidableEq

/-- Go's `error`: `none` is the nil error, `some msg` is `errors.New(msg)`. -/
abbrev GoError := Option String

/-- Smallest value of Go's 64-bit `int`. -/
def minInt64 : Int := -9223372036854775808

/-- Largest value of Go's 64-bit `int`. -/
def maxInt64 : Int := 9223372036854775807

/-- The value is representable as a Go 64-bit `int`. -/
def isInt64 (x : Int) : Prop := minInt64 ≤ x ∧ x ≤ maxInt64

instance (x : Int) : Decidable (isInt64 x) := by
  unfold isInt64; exact inferInstance

/-- Two's-complement wrap-around of a mathematical integer to 64 bits: what Go's
`+` on `int` stores. -/
def wrap64 (x : Int) : Int := (x + 9223372036854775808) % 18446744073709551616 - 9223372036854775808

/-! ## `IntHeap`, `MaxHeap`, `MinHeap` (src/main.go lines 9-43) -/

/-- Go: `type IntHeap []int`. -/
abbrev IntHeap := List Int

/-- Go: `func (h IntHeap) Len() int { return len(h) }`. -/
def IntHeap.Len (h : IntHeap) : Nat := h.length

/-- Go: `func (h IntHeap) Less(i, j int) bool { return h[i] < h[j] }`. -/
def IntHeap.Less (h : IntHeap) (i j : Nat) : Bool := decide (h.getD i 0 < h.getD j 0)

/-- Go: `func (h IntHeap) Swap(i, j int) { h[i], h[j] = h[j], h[i] }`: both right-hand
sides are read before either store. -/
def IntHeap.Swap (h : IntHeap) (i j : Nat) : IntHeap :=
  (h.set i (h.getD j 0)).set j (h.getD i 0)

/-- Go: `func (h *IntHeap) Push(x any) { *h = append(*h, x.(int)) }`. Every value the
program pushes is an `int` (it passed the assertion in `Insert` or came out of a
heap), so the argument is typed `Int`. -/
def IntHeap.Push (h : IntHeap) (x : Int) : IntHeap := h ++ [x]

/-- Go: `func (h *IntHeap) Pop() any`: returns `old[n-1]` and leaves `old[0 : n-1]`;
on an empty slice `old[-1]` panics. -/
def IntHeap.Pop (h : IntHeap) : Option (Int × IntHeap) :=
  match h.getLast? with
  | none => none
  | some x => some (x, h.take (h.length - 1))

/-- Go: `func (h *IntHeap) Peek() any { return (*h)[0] }`: the element at index 0
together with the (untouched) receiver; on an empty slice the index panics. -/
def IntHeap.Peek (h : IntHeap) : Option (Int × IntHeap) :=
  match h with
  | [] => none
  | x :: _ => some (x, h)

/-- Go: `type MaxHeap struct { IntHeap }`. -/
structure MaxHeap where
  IntHeap : IntHeap
  deriving DecidableEq

/-- Go: `func (h MaxHeap) Less(i, j int) bool { return h.IntHeap[i] > h.IntHeap[j] }`. -/
def MaxHeap.Less (h : MaxHeap) (i j : Nat) : Bool :=
  decide (h.IntHeap.getD i 0 > h.IntHeap.getD j 0)

/-- Go: `type MinHeap struct { IntHeap }`. -/
structure MinHeap where
  IntHeap : IntHeap
  deriving DecidableEq

/-- Go: `func (h MinHeap) Less(i, j int) bool { return h.IntHeap[i] < h.IntHeap[j] }`. -/
def MinHeap.Less (h : MinHeap) (i j : Nat) : Bool :=
  decide (h.IntHeap.getD i 0 < h.IntHeap.getD j 0)

/-- Promoted method `Len` of the embedded `IntHeap`. -/
def MaxHeap.Len (h : MaxHeap) : Nat := h.IntHeap.Len

/-- Promoted method `Len` of the embedded `IntHeap`. -/
def MinHeap.Len (h : MinHeap) : Nat := h.IntHeap.Len

/-- Promoted method `Peek` of the embedded `IntHeap`. -/
def MaxHeap.Peek (h : MaxHeap) : Option (Int × MaxHeap) :=
  match h.IntHeap.Peek with
  | none => none
  | some (x, d) => some (x, ⟨d⟩)

/-- Promoted method `Peek` of the embedded `IntHeap`. -/
def MinHeap.Peek (h : MinHeap) : Option (Int × MinHeap) :=
  match h.IntHeap.Peek with
  | none => none
  | some (x, d) => some (x, ⟨d⟩)

/-- The `Less` that `container/heap` sees through `heap.Interface` when handed a
`*MaxHeap`: `MaxHeap.Less` on the embedded storage. -/
def MaxHeap.less (d : MedianOnHeap.IntHeap) (i j : Nat) : Bool := MaxHeap.Less ⟨d⟩ i j

/-- The `Less` that `container/heap` sees through `heap.Interface` when handed a
`*MinHeap`: `MinHeap.Less` on the embedded storage. -/
def MinHeap.less (d : MedianOnHeap.IntHeap) (i j : Nat) : Bool := MinHeap.Less ⟨d⟩ i j

/-! ## `container/heap`

The package is imported by `src/main.go` (line 4) and is not part of the
repository's sources.  `Len`, `Swap`, `Push` and `Pop` of all three heap types are
the methods of the embedded `IntHeap`; the types differ in `Less` alone, so the
package functions take the storage and the `Less` of the type. -/

/-- Modelled from the spec: `up` of the imported package `container/heap`, which
is not under `src/`. Spec 4.1: "restores the heap invariant by sifting it toward
the root while its parent violates the ordering predicate (swap and continue
toward index 0)". The loop is the library's
`for { i := (j-1)/2; if i == j || !h.Less(j, i) { break }; h.Swap(i, j); j = i }`;
Go's `(j-1)/2` truncates toward zero, so at `j = 0` it is `0`, as is the
natural-number expression. -/
def heap.up (less : IntHeap → Nat → Nat → Bool) : Nat → IntHeap → Nat → IntHeap
  | 0, h, _ => h
  | fuel + 1, h, j =>
    let i := (j - 1) / 2
    if i = j ∨ less h j i = false then h
    else heap.up less fuel (h.Swap i j) i

/-- Modelled from the spec: `down` of the imported package `container/heap`, which
is not under `src/`. Spec 4.1: "sift the new root downward, at each step swapping
with the higher-priority child (by the type's ordering predicate) until the
invariant holds or a leaf is reached". The loop is the library's
`for { j1 := 2*i+1; if j1 >= n { break }; j := j1;
if j2 := j1+1; j2 < n && h.Less(j2, j1) { j = j2 };
if !h.Less(j, i) { break }; h.Swap(i, j); i = j }`; its boolean result is unused
by `Pop` and left out. -/
def heap.down (less : IntHeap → Nat → Nat → Bool) : Nat → IntHeap → Nat → Nat → IntHeap
  | 0, h, _, _ => h
  | fuel + 1, h, i, n =>
    let j1 := 2 * i + 1
    if n ≤ j1 then h
    else
      let j := if j1 + 1 < n ∧ less h (j1 + 1) j1 = true then j1 + 1 else j1
      if less h j i = false then h
      else heap.down less fuel (h.Swap i j) j n

/-- Modelled from the spec: `heap.Push` of the imported package `container/heap`
(not under `src/`), spec 4.1 "appends v and restores the heap invariant by
sifting it toward the root": `h.Push(x); up(h, h.Len()-1)`. -/
def heap.Push (less : IntHeap → Nat → Nat → Bool) (h : IntHeap) (x : Int) : IntHeap :=
  let h1 := h.Push x
  heap.up less h1.Len h1 (h1.Len - 1)

/-- Modelled from the spec: `heap.Pop` of the imported package `container/heap`
(not under `src/`), spec 4.1 "swap root with the last element, shrink the
sequence by one, then sift the new root downward":
`n := h.Len() - 1; h.Swap(0, n); down(h, 0, n); return h.Pop()`. On an empty heap
`n` is `-1` and `Swap(0, -1)` panics. -/
def heap.Pop (less : IntHeap → Nat → Nat → Bool) (h : IntHeap) : Option (Int × IntHeap) :=
  if h.Len = 0 then none
  else
    let n := h.Len - 1
    let h1 := h.Swap 0 n
    let h2 := heap.down less n h1 0 n
    h2.Pop

/-! ## `MedianHeap` (src/main.go lines 45-114) -/

/-- Go: `type MedianHeap struct { Min *MinHeap; Max *MaxHeap }`. -/
structure MedianHeap where
  Min : MinHeap
  Max : MaxHeap
  deriving DecidableEq

/-- Go: `func New() *MedianHeap`: both heaps empty. -/
def New : MedianHeap := { Min := ⟨[]⟩, Max := ⟨[]⟩ }

/-- The size-balancing tail of `Insert` (src/main.go lines 80-90): two
sequential `if` statements, the second one testing the state the first one left. -/
def MedianHeap.rebalance (h : MedianHeap) : Option MedianHeap :=
  let afterFirst : Option MedianHeap :=
    if h.Max.Len > h.Min.Len + 1 then
      match heap.Pop MaxHeap.less h.Max.IntHeap with
      | none => none
      | some (vv, d) => some { Min := ⟨heap.Push MinHeap.less h.Min.IntHeap vv⟩, Max := ⟨d⟩ }
    else some h
  match afterFirst with
  | none => none
  | some h1 =>
    if h1.Min.Len > h1.Max.Len + 1 then
      match heap.Pop MinHeap.less h1.Min.IntHeap with
      | none => none
      | some (vv, d) => some { Min := ⟨d⟩, Max := ⟨heap.Push MaxHeap.less h1.Max.IntHeap vv⟩ }
    else some h1

/-- Go: `func (h *MedianHeap) Insert(value any)` (src/main.go lines 57-91). The result
is the state of the receiver afterwards; `none` is a run-time panic. The second
`!ok` return (line 70) cannot be taken, `Peek` returning an `int`. -/
def MedianHeap.Insert (h : MedianHeap) (value : GoAny) : Option MedianHeap :=
  match value with
  | GoAny.int v =>
    if h.Max.Len < 2 then
      some { h with Max := ⟨heap.Push MaxHeap.less h.Max.IntHeap v⟩ }
    else
      match h.Max.Peek with
      | none => none
      | some (top, mx) =>
        let h0 : MedianHeap := { h with Max := mx }
        let h1 : MedianHeap :=
          if top ≥ v then { h0 with Max := ⟨heap.Push MaxHeap.less h0.Max.IntHeap v⟩ }
          else { h0 with Min := ⟨heap.Push MinHeap.less h0.Min.IntHeap v⟩ }
        h1.rebalance
  | _ => some h

/-- Go: `func (h *MedianHeap) Median() (int, error)` (src/main.go lines 93-114). The
receiver is only read. `none` is a run-time panic. -/
def MedianHeap.Median (h : MedianHeap) : Option (Int × GoError) :=
  if h.Max.Len = 0 ∧ h.Min.Len = 0 then some (0, some "mean heap is empty")
  else if h.Max.Len = h.Min.Len then
    match h.Max.Peek, h.Min.Peek with
    | some (v1, _), some (v2, _) => some (Int.tdiv (wrap64 (v1 + v2)) 2, none)
    | _, _ => none
  else if h.Max.Len > h.Min.Len then
    match h.Max.Peek with
    | some (v, _) => some (v, none)
    | none => none
  else
    match h.Min.Peek with
    | some (v, _) => some (v, none)
    | none => none

/-! ## Drivers: the loops of `main` (src/main.go lines 118-148) -/

/-- Loop `for _, v := range vs { mh.Insert(v) }` (src/main.go lines 136-138), for a
list of values of type `any`. -/
def MedianHeap.insertAny : MedianHeap → List GoAny → Option MedianHeap
  | h, [] => some h
  | h, v :: vs =>
    match h.Insert v with
    | none => none
    | some h1 => MedianHeap.insertAny h1 vs

/-- Loop `for _, v := range []int{...} { mh.Insert(v) }` on a fresh `New()`. -/
def insertAll (vs : List Int) : Option MedianHeap :=
  New.insertAny (vs.map GoAny.int)

/-- Loop `for _, v := range vs { heap.Push(h, v) }` (src/main.go lines 121-123). -/
def heap.pushAll (less : IntHeap → Nat → Nat → Bool) (h : IntHeap) (vs : List Int) : IntHeap :=
  vs.foldl (heap.Push less) h

/-- Loop `for h.Len() > 0 { v := heap.Pop(h); ... }` (src/main.go lines 129-132): the
values in the order they are popped, and the heap that is left. Each iteration
shortens the heap by one, so `fuel = h.Len()` iterations empty it. -/
def heap.drain (less : IntHeap → Nat → Nat → Bool) : Nat → IntHeap → Option (List Int × IntHeap)
  | 0, h => some ([], h)
  | fuel + 1, h =>
    if h.Len > 0 then
      match heap.Pop less h with
      | none => none
      | some (v, h1) =>
        match heap.drain less fuel h1 with
        | none => none
        | some (vs, h2) => some (v :: vs, h2)
    else some ([], h)

/-- The loop `heap.drain` run for as long as the loop condition can hold. -/
def heap.popAll (less : IntHeap → Nat → Nat → Bool) (h : IntHeap) : Option (List Int × IntHeap) :=
  heap.drain less h.Len h


/-! ## Specification predicates -/

/-- The order a heap type keeps: `le a b` says that `a` may sit above `b`. The
type's `Less` is the strict part of `le`, and `le` is a total preorder. -/
structure HeapOrder (less : IntHeap → Nat → Nat → Bool) (le : Int → Int → Prop) : Prop where
  less_iff : ∀ (h : IntHeap) (i j : Nat), less h i j = true ↔ ¬ le (h.getD j 0) (h.getD i 0)
  total : ∀ a b : Int, le a b ∨ le b a
  trans : ∀ a b c : Int, le a b → le b c → le a c

/-- Heap order in the parent view of spec section 3: every index `i` is in order
with each of its existing children `2i+1`, `2i+2`. -/
def HeapOrdered (le : Int → Int → Prop) (a : IntHeap) : Prop :=
  ∀ i, i < a.length →
    (2 * i + 1 < a.length → le (a.getD i 0) (a.getD (2 * i + 1) 0)) ∧
    (2 * i + 2 < a.length → le (a.getD i 0) (a.getD (2 * i + 2) 0))

/-- Heap order of a min-heap (`IntHeap`, `MinHeap`): `a[i] <= a[c]`. -/
def isMinHeap (a : IntHeap) : Prop := HeapOrdered (fun x y => x ≤ y) a

/-- Heap order of a max-heap (`MaxHeap`): `a[i] >= a[c]`. -/
def isMaxHeap (a : IntHeap) : Prop := HeapOrdered (fun x y => x ≥ y) a

instance (a : IntHeap) : Decidable (isMinHeap a) := by
  unfold isMinHeap HeapOrdered; exact inferInstance

instance (a : IntHeap) : Decidable (isMaxHeap a) := by
  unfold isMaxHeap HeapOrdered; exact inferInstance

/-- Heap order in the child view, on the first `n` cells: every cell but the root
is in order with its parent `(c-1)/2`. -/
def HeapOn (le : Int → Int → Prop) (a : IntHeap) (n : Nat) : Prop :=
  ∀ c, 0 < c → c < n → le (a.getD ((c - 1) / 2) 0) (a.getD c 0)

/-- Loop invariant of `heap.up` at position `j`: the first `n` cells are in heap
order except possibly between `j` and its parent, and the children of `j` are in
order with the parent of `j`. -/
def UpInv (le : Int → Int → Prop) (a : IntHeap) (n j : Nat) : Prop :=
  (∀ c, 0 < c → c < n → c ≠ j → le (a.getD ((c - 1) / 2) 0) (a.getD c 0)) ∧
  (∀ c, 0 < c → c < n → (c - 1) / 2 = j → 0 < j →
    le (a.getD ((j - 1) / 2) 0) (a.getD c 0))

/-- Loop invariant of `heap.down` at position `i`: the first `n` cells are in heap
order except possibly between `i` and its children, and the children of `i` are
in order with the parent of `i`. -/
def DownInv (le : Int → Int → Prop) (a : IntHeap) (n i : Nat) : Prop :=
  (∀ c, 0 < c → c < n → (c - 1) / 2 ≠ i → le (a.getD ((c - 1) / 2) 0) (a.getD c 0)) ∧
  (∀ c, 0 < c → c < n → (c - 1) / 2 = i → 0 < i →
    le (a.getD ((i - 1) / 2) 0) (a.getD c 0))

/-- The child `heap.down` compares position `i` with: the right child `2i+2` when
it exists below `n` and is `Less` than the left one, else the left child `2i+1`
(the local `j` of the loop body). -/
def downChild (less : IntHeap → Nat → Nat → Bool) (h : IntHeap) (i n : Nat) : Nat :=
  if 2 * i + 1 + 1 < n ∧ less h (2 * i + 1 + 1) (2 * i + 1) = true then 2 * i + 1 + 1
  else 2 * i + 1

/-- What the two heaps of a `MedianHeap` hold, as the balancing step needs it:
both are heap-ordered, every value of `Max` is at most every value of `Min`, and
together they hold exactly `xs`. -/
structure Core (s : MedianHeap) (xs : List Int) : Prop where
  maxOrd : isMaxHeap s.Max.IntHeap
  minOrd : isMinHeap s.Min.IntHeap
  sep : ∀ a ∈ s.Max.IntHeap, ∀ b ∈ s.Min.IntHeap, a ≤ b
  perm : (s.Max.IntHeap ++ s.Min.IntHeap).Perm xs

/-- Sizes of the two heaps in a state reached from `New()`: either the first
insertions are still being collected in `Max` (at most two values, `Min`
empty), or `Max` holds at least two values and the sizes differ by at most one. -/
def Sizes (s : MedianHeap) : Prop :=
  (s.Min.Len = 0 ∧ s.Max.Len ≤ 2) ∨
    (2 ≤ s.Max.Len ∧ s.Max.Len ≤ s.Min.Len + 1 ∧ s.Min.Len ≤ s.Max.Len + 1)

/-- State invariant of a `MedianHeap` after the ints `xs` were inserted. -/
structure Inv (s : MedianHeap) (xs : List Int) : Prop where
  core : Core s xs
  sizes : Sizes s

/-- The sequence sorted ascending (the reference the median is measured against). -/
def sortAsc (xs : List Int) : List Int := xs.insertionSort (fun a b => a ≤ b)

/-- The sequence sorted descending. -/
def sortDesc (xs : List Int) : List Int := xs.insertionSort (fun a b => a ≥ b)

/-- Insert the ints one by one into a fresh `New()` and call `Median()`
(src/main.go lines 127, 136-140). -/
def medianOf (xs : List Int) : Option (Int × GoError) :=
  match insertAll xs with
  | none => none
  | some s => s.Median

/-- The ints among a list of `any` values, in order: the values `Insert` accepts. -/
def ints : List GoAny → List Int
  | [] => []
  | GoAny.int v :: vs => v :: ints vs
  | _ :: vs => ints vs

/-- One call of `container/heap` on a heap: `heap.Push(h, v)` or `heap.Pop(h)`. -/
inductive HeapOp where
  | push (v : Int)
  | pop
  deriving DecidableEq, Repr

/-- Run an interleaving of `heap.Push` and `heap.Pop` calls on a heap: the heap at
the end and the popped values in the order they came out; `none` when a
`heap.Pop` panics on an empty heap. -/
def heap.run (less : IntHeap → Nat → Nat → Bool) : IntHeap → List HeapOp → Option (IntHeap × List Int)
  | h, [] => some (h, [])
  | h, HeapOp.push v :: ops => heap.run less (heap.Push less h v) ops
  | h, HeapOp.pop :: ops =>
    match heap.Pop less h with
    | none => none
    | some (v, h1) =>
      match heap.run less h1 ops with
      | none => none
      | some (h2, vs) => some (h2, v :: vs)

/-- The interleaving calls `heap.Pop` only on a non-empty heap, when started on a
heap of `n` values. -/
def popsNonEmpty : Nat → List HeapOp → Bool
  | _, [] => true
  | n, HeapOp.push _ :: ops => popsNonEmpty (n + 1) ops
  | 0, HeapOp.pop :: _ => false
  | n + 1, HeapOp.pop :: ops => popsNonEmpty n ops

/-- The values an interleaving pushes, in order. -/
def pushed : List HeapOp → List Int
  | [] => []
  | HeapOp.push v :: ops => v :: pushed ops
  | HeapOp.pop :: ops => pushed ops

/-- Step 3 of spec 4.2 in the spec's words: "if `MaxHeap.Len() > MinHeap.Len() + 1`,
pop MaxHeap's root and push it into MinHeap. Else if `MinHeap.Len() >
MaxHeap.Len() + 1`, pop MinHeap's root and push it into MaxHeap." The second
test is made on the state before the step, and only when the first one failed. -/
def MedianHeap.rebalanceElseIf (h : MedianHeap) : Option MedianHeap :=
  if h.Max.Len > h.Min.Len + 1 then
    match heap.Pop MaxHeap.less h.Max.IntHeap with
    | none => none
    | some (vv, d) => some { Min := ⟨heap.Push MinHeap.less h.Min.IntHeap vv⟩, Max := ⟨d⟩ }
  else if h.Min.Len > h.Max.Len + 1 then
    match heap.Pop MinHeap.less h.Min.IntHeap with
    | none => none
    | some (vv, d) => some { Min := ⟨d⟩, Max := ⟨heap.Push MaxHeap.less h.Max.IntHeap vv⟩ }
  else some h

/-- The three steps of spec 4.2 in the spec's words, with the `if ... else if` of
step 3 (`MedianHeap.rebalanceElseIf`); to be compared with `MedianHeap.Insert`,
which is the source's. -/
def MedianHeap.InsertElseIf (h : MedianHeap) (value : GoAny) : Option MedianHeap :=
  match value with
  | GoAny.int v =>
    if h.Max.Len < 2 then
      some { h with Max := ⟨heap.Push MaxHeap.less h.Max.IntHeap v⟩ }
    else
      match h.Max.Peek with
      | none => none
      | some (top, mx) =>
        let h0 : MedianHeap := { h with Max := mx }
        let h1 : MedianHeap :=
          if top ≥ v then { h0 with Max := ⟨heap.Push MaxHeap.less h0.Max.IntHeap v⟩ }
          else { h0 with Min := ⟨heap.Push MinHeap.less h0.Min.IntHeap v⟩ }
        h1.rebalanceElseIf
  | _ => some h

/-! ## The slice primitives -/

theorem IntHeap.length_Swap (h : IntHeap) (i j : Nat) : (h.Swap i j).length = h.length := by
  simp [IntHeap.Swap]

theorem IntHeap.getD_Swap (h : IntHeap) {i j : Nat} (hi : i < h.length) (hj : j < h.length)
    (k : Nat) :
    (h.Swap i j).getD k 0 =
      if k = j then h.getD i 0 else if k = i then h.getD j 0 else h.getD k 0 := by
  simp only [IntHeap.Swap, List.getD_eq_getElem?_getD, List.getElem?_set, List.length_set]
  by_cases hkj : k = j
  · subst hkj; simp [hj]
  · by_cases hki : k = i
    · subst hki; simp [hi, hkj, Ne.symm hkj]
    · simp [hkj, hki, Ne.symm hkj, Ne.symm hki]

theorem IntHeap.getD_Swap_of_ne (h : IntHeap) {i j k : Nat} (hi : i < h.length)
    (hj : j < h.length) (hki : k ≠ i) (hkj : k ≠ j) : (h.Swap i j).getD k 0 = h.getD k 0 := by
  rw [IntHeap.getD_Swap h hi hj]; simp [hki, hkj]

theorem count_set_add (l : List Int) (i : Nat) (a b : Int) (hi : i < l.length) :
    (l.set i a).count b + (if l.getD i 0 = b then 1 else 0) =
      l.count b + (if a = b then 1 else 0) := by
  induction l generalizing i with
  | nil => simp at hi
  | cons x xs ih =>
    cases i with
    | zero =>
      simp only [List.set_cons_zero, List.count_cons, List.getD_cons_zero, beq_iff_eq]
      omega
    | succ k =>
      have hk : k < xs.length := by simpa using hi
      have := ih k hk
      simp only [List.set_cons_succ, List.count_cons, List.getD_cons_succ, beq_iff_eq]
      omega

theorem IntHeap.Swap_perm (h : IntHeap) {i j : Nat} (hi : i < h.length) (hj : j < h.length) :
    (h.Swap i j).Perm h := by
  rw [List.perm_iff_count]
  intro b
  have h1 := count_set_add h i (h.getD j 0) b hi
  have h2 := count_set_add (h.set i (h.getD j 0)) j (h.getD i 0) b (by simpa using hj)
  have h3 : (h.set i (h.getD j 0)).getD j 0 = h.getD j 0 := by
    simp only [List.getD_eq_getElem?_getD, List.getElem?_set]
    by_cases hij : i = j
    · subst hij; simp [hi]
    · simp [hij]
  rw [h3] at h2
  unfold IntHeap.Swap
  omega


/-! ## `heap.up` -/

theorem parent_lt {j : Nat} (hj : 0 < j) : (j - 1) / 2 < j := by omega

theorem heap.up_length (less : IntHeap → Nat → Nat → Bool) (fuel : Nat) (h : IntHeap) (j : Nat) :
    (heap.up less fuel h j).length = h.length := by
  induction fuel generalizing h j with
  | zero => rfl
  | succ f ih =>
    unfold heap.up
    simp only []
    split_ifs
    · rfl
    · rw [ih, IntHeap.length_Swap]

theorem heap.up_perm (less : IntHeap → Nat → Nat → Bool) (fuel : Nat) (h : IntHeap) (j : Nat)
    (hj : j < h.length) : (heap.up less fuel h j).Perm h := by
  induction fuel generalizing h j with
  | zero => exact List.Perm.refl _
  | succ f ih =>
    unfold heap.up
    simp only []
    split_ifs with hc
    · exact List.Perm.refl _
    · have hi : (j - 1) / 2 < h.length := by omega
      exact (ih (h.Swap ((j - 1) / 2) j) ((j - 1) / 2)
        (by rw [IntHeap.length_Swap]; exact hi)).trans (IntHeap.Swap_perm h hi hj)

/-- The fuel handed to `heap.up` is never used up: any two amounts above `j` give
the same result, so the model runs the library's loop to its `break`. -/
theorem heap.up_fuel (less : IntHeap → Nat → Nat → Bool) (f1 f2 : Nat) (h : IntHeap) (j : Nat)
    (h1 : j < f1) (h2 : j < f2) : heap.up less f1 h j = heap.up less f2 h j := by
  induction f1 generalizing f2 h j with
  | zero => omega
  | succ f ih =>
    cases f2 with
    | zero => omega
    | succ g =>
      unfold heap.up
      simp only []
      split_ifs with hc
      · rfl
      · have : (j - 1) / 2 ≠ j := fun e => hc (Or.inl e)
        exact ih g _ _ (by omega) (by omega)

theorem UpInv_Swap {less : IntHeap → Nat → Nat → Bool} {le : Int → Int → Prop}
    (ho : HeapOrder less le) (h : IntHeap) (j : Nat) (hj : j < h.length) (hj0 : 0 < j)
    (hless : less h j ((j - 1) / 2) = true) (inv : UpInv le h h.length j) :
    UpInv le (h.Swap ((j - 1) / 2) j) (h.Swap ((j - 1) / 2) j).length ((j - 1) / 2) := by
  have hij : (j - 1) / 2 < j := parent_lt hj0
  have hi : (j - 1) / 2 < h.length := by omega
  have hlt : le (h.getD j 0) (h.getD ((j - 1) / 2) 0) := by
    rcases ho.total (h.getD j 0) (h.getD ((j - 1) / 2) 0) with t | t
    · exact t
    · exact absurd t ((ho.less_iff h j ((j - 1) / 2)).1 hless)
  rw [IntHeap.length_Swap]
  refine ⟨?_, ?_⟩
  · intro c hc0 hcn hci
    rw [IntHeap.getD_Swap h hi hj, IntHeap.getD_Swap h hi hj]
    by_cases hcj : c = j
    · subst hcj
      simp only [if_true, if_neg (Nat.ne_of_lt hij)]
      exact hlt
    · simp only [if_neg hcj, if_neg hci]
      by_cases hp : (c - 1) / 2 = j
      · simp only [if_pos hp]
        have := inv.2 c hc0 hcn hp hj0
        exact this
      · simp only [if_neg hp]
        by_cases hq : (c - 1) / 2 = (j - 1) / 2
        · simp only [if_pos hq]
          have h1 := inv.1 c hc0 hcn hcj
          rw [hq] at h1
          exact ho.trans _ _ _ hlt h1
        · simp only [if_neg hq]
          exact inv.1 c hc0 hcn hcj
  · intro c hc0 hcn hp hi0
    have hpp : ((j - 1) / 2 - 1) / 2 < (j - 1) / 2 := parent_lt hi0
    rw [IntHeap.getD_Swap_of_ne h hi hj (by omega) (by omega), IntHeap.getD_Swap h hi hj]
    have hgp := inv.1 ((j - 1) / 2) hi0 hi (by omega)
    by_cases hcj : c = j
    · simp only [if_pos hcj]
      exact hgp
    · have hci : c ≠ (j - 1) / 2 := by omega
      simp only [if_neg hcj, if_neg hci]
      exact ho.trans _ _ _ hgp (hp ▸ inv.1 c hc0 hcn hcj)

theorem heap.up_heap {less : IntHeap → Nat → Nat → Bool} {le : Int → Int → Prop}
    (ho : HeapOrder less le) (fuel : Nat) (h : IntHeap) (j : Nat) (hj : j < h.length)
    (hf : j < fuel) (inv : UpInv le h h.length j) :
    HeapOn le (heap.up less fuel h j) h.length := by
  induction fuel generalizing h j with
  | zero => omega
  | succ f ih =>
    unfold heap.up
    simp only []
    split_ifs with hc
    · intro c hc0 hcn
      by_cases hcj : c = j
      · subst hcj
        rcases hc with e | e
        · have := parent_lt hc0
          omega
        · by_contra hn
          have := (ho.less_iff h c ((c - 1) / 2)).2 hn
          rw [e] at this
          exact Bool.noConfusion this
      · exact inv.1 c hc0 hcn hcj
    · have hne : (j - 1) / 2 ≠ j := fun e => hc (Or.inl e)
      have hj0 : 0 < j := by omega
      have hless : less h j ((j - 1) / 2) = true := by
        cases hb : less h j ((j - 1) / 2)
        · exact absurd (Or.inr hb) hc
        · rfl
      have hi : (j - 1) / 2 < h.length := by omega
      have := ih (h.Swap ((j - 1) / 2) j) ((j - 1) / 2)
        (by rw [IntHeap.length_Swap]; exact hi) (by omega)
        (UpInv_Swap ho h j hj hj0 hless inv)
      rw [IntHeap.length_Swap] at this
      exact this



/-! ## `heap.down` -/

theorem heap.down_zero (less : IntHeap → Nat → Nat → Bool) (h : IntHeap) (i n : Nat) :
    heap.down less 0 h i n = h := rfl

/-- One turn of the loop of `heap.down`, with the chosen child named. -/
theorem heap.down_succ (less : IntHeap → Nat → Nat → Bool) (f : Nat) (h : IntHeap) (i n : Nat) :
    heap.down less (f + 1) h i n =
      if n ≤ 2 * i + 1 then h
      else if less h (downChild less h i n) i = false then h
      else heap.down less f (h.Swap i (downChild less h i n)) (downChild less h i n) n := rfl

theorem heap.down_length (less : IntHeap → Nat → Nat → Bool) (fuel : Nat) (h : IntHeap)
    (i n : Nat) : (heap.down less fuel h i n).length = h.length := by
  induction fuel generalizing h i with
  | zero => rfl
  | succ f ih =>
    rw [heap.down_succ]
    split_ifs <;> first | rfl | (rw [ih, IntHeap.length_Swap])

/-- The child `heap.down` picks is a child of `i` inside the first `n` cells. -/
theorem down_child_range (less : IntHeap → Nat → Nat → Bool) (h : IntHeap) (i n : Nat)
    (hn : 2 * i + 1 < n) :
    downChild less h i n < n ∧
    i < downChild less h i n ∧
    (downChild less h i n - 1) / 2 = i := by
  unfold downChild
  split_ifs with hc
  · refine ⟨hc.1, by omega, by omega⟩
  · refine ⟨hn, by omega, by omega⟩

/-- The child `heap.down` picks is in order with every child of `i`. -/
theorem down_child_le {less : IntHeap → Nat → Nat → Bool} {le : Int → Int → Prop}
    (ho : HeapOrder less le) (h : IntHeap) (i n : Nat) (c : Nat) (hc0 : 0 < c) (hcn : c < n)
    (hp : (c - 1) / 2 = i) :
    le (h.getD (downChild less h i n) 0) (h.getD c 0) := by
  have hrefl : ∀ a, le a a := fun a => (ho.total a a).elim id id
  have hcc : c = 2 * i + 1 ∨ c = 2 * i + 1 + 1 := by omega
  unfold downChild
  split_ifs with hc
  · rcases hcc with e | e
    · subst e
      rcases ho.total (h.getD (2 * i + 1 + 1) 0) (h.getD (2 * i + 1) 0) with t | t
      · exact t
      · exact absurd t ((ho.less_iff h _ _).1 hc.2)
    · subst e; exact hrefl _
  · rcases hcc with e | e
    · subst e; exact hrefl _
    · subst e
      by_contra hn
      exact hc ⟨hcn, (ho.less_iff h _ _).2 hn⟩

theorem heap.down_perm (less : IntHeap → Nat → Nat → Bool) (fuel : Nat) (h : IntHeap)
    (i n : Nat) (hn : n ≤ h.length) : (heap.down less fuel h i n).Perm h := by
  induction fuel generalizing h i with
  | zero => exact List.Perm.refl _
  | succ f ih =>
    rw [heap.down_succ]
    split_ifs with h1 h2
    · exact List.Perm.refl _
    · exact List.Perm.refl _
    · obtain ⟨hjn, hij, _⟩ := down_child_range less h i n (by omega)
      exact (ih _ _ (by rw [IntHeap.length_Swap]; exact hn)).trans
        (IntHeap.Swap_perm h (by omega) (by omega))

/-- Cells from `n` on are not touched by `heap.down`. -/
theorem heap.down_getD_ge (less : IntHeap → Nat → Nat → Bool) (fuel : Nat) (h : IntHeap)
    (i n : Nat) (hn : n ≤ h.length) (k : Nat) (hk : n ≤ k) :
    (heap.down less fuel h i n).getD k 0 = h.getD k 0 := by
  induction fuel generalizing h i with
  | zero => rfl
  | succ f ih =>
    rw [heap.down_succ]
    split_ifs with h1 h2
    · rfl
    · rfl
    · obtain ⟨hjn, hij, _⟩ := down_child_range less h i n (by omega)
      rw [ih _ _ (by rw [IntHeap.length_Swap]; exact hn)]
      exact IntHeap.getD_Swap_of_ne h (by omega) (by omega) (by omega) (by omega)

/-- The fuel handed to `heap.down` is never used up: any two amounts that reach
from `i` to `n` give the same result. -/
theorem heap.down_fuel (less : IntHeap → Nat → Nat → Bool) (f1 f2 : Nat) (h : IntHeap)
    (i n : Nat) (h1 : n ≤ i + f1) (h2 : n ≤ i + f2) :
    heap.down less f1 h i n = heap.down less f2 h i n := by
  induction f1 generalizing f2 h i with
  | zero =>
    cases f2 with
    | zero => rfl
    | succ g =>
      rw [heap.down_succ, if_pos (by omega)]; rfl
  | succ f ih =>
    cases f2 with
    | zero =>
      rw [heap.down_succ, if_pos (by omega)]; rfl
    | succ g =>
      rw [heap.down_succ, heap.down_succ]
      split_ifs with c1 c2
      · rfl
      · rfl
      · obtain ⟨hjn, hij, _⟩ := down_child_range less h i n (by omega)
        exact ih g _ _ (by omega) (by omega)

theorem DownInv_Swap {less : IntHeap → Nat → Nat → Bool} {le : Int → Int → Prop}
    (ho : HeapOrder less le) (h : IntHeap) (i n j : Nat) (hn : n ≤ h.length)
    (hjn : j < n) (hij : i < j) (hpj : (j - 1) / 2 = i)
    (hch : ∀ c, 0 < c → c < n → (c - 1) / 2 = i → le (h.getD j 0) (h.getD c 0))
    (hless : less h j i = true) (inv : DownInv le h n i) :
    DownInv le (h.Swap i j) n j := by
  have hi : i < h.length := by omega
  have hj : j < h.length := by omega
  have hlt : le (h.getD j 0) (h.getD i 0) := by
    rcases ho.total (h.getD j 0) (h.getD i 0) with t | t
    · exact t
    · exact absurd t ((ho.less_iff h j i).1 hless)
  refine ⟨?_, ?_⟩
  · intro c hc0 hcn hp
    rw [IntHeap.getD_Swap h hi hj, IntHeap.getD_Swap h hi hj]
    simp only [if_neg hp]
    by_cases hpi : (c - 1) / 2 = i
    · simp only [if_pos hpi]
      by_cases hcj : c = j
      · simp only [if_pos hcj]; exact hlt
      · have hci : c ≠ i := by omega
        simp only [if_neg hcj, if_neg hci]
        exact hch c hc0 hcn hpi
    · simp only [if_neg hpi]
      have hcj : c ≠ j := fun e => hpi (e ▸ hpj)
      simp only [if_neg hcj]
      by_cases hci : c = i
      · simp only [if_pos hci]
        have := inv.2 j (by omega) hjn hpj (by omega)
        rw [hci]; exact this
      · simp only [if_neg hci]
        exact inv.1 c hc0 hcn hpi
  · intro c hc0 hcn hp hj0
    rw [hpj, IntHeap.getD_Swap h hi hj, IntHeap.getD_Swap h hi hj]
    have hci : c ≠ i := by omega
    have hcj : c ≠ j := by omega
    simp only [if_neg (Nat.ne_of_lt hij), if_true, if_neg hci, if_neg hcj]
    have := inv.1 c hc0 hcn (by omega)
    rw [hp] at this
    exact this

theorem heap.down_heap {less : IntHeap → Nat → Nat → Bool} {le : Int → Int → Prop}
    (ho : HeapOrder less le) (fuel : Nat) (h : IntHeap) (i n : Nat) (hn : n ≤ h.length)
    (hf : n ≤ i + fuel) (inv : DownInv le h n i) :
    HeapOn le (heap.down less fuel h i n) n := by
  induction fuel generalizing h i with
  | zero =>
    intro c hc0 hcn
    exact inv.1 c hc0 hcn (by omega)
  | succ f ih =>
    rw [heap.down_succ]
    split_ifs with h1 h2
    · intro c hc0 hcn
      exact inv.1 c hc0 hcn (by omega)
    · intro c hc0 hcn
      by_cases hp : (c - 1) / 2 = i
      · have hle : le (h.getD i 0) (h.getD (downChild less h i n) 0) := by
          by_contra hcon
          have := (ho.less_iff h _ i).2 hcon
          rw [h2] at this
          exact Bool.noConfusion this
        have := ho.trans _ _ _ hle (down_child_le ho h i n c hc0 hcn hp)
        rw [hp]; exact this
      · exact inv.1 c hc0 hcn hp
    · obtain ⟨hjn, hij, hpj⟩ := down_child_range less h i n (by omega)
      have hless : less h (downChild less h i n) i = true := by
        cases hb : less h (downChild less h i n) i
        · exact absurd hb h2
        · rfl
      exact ih _ _ (by rw [IntHeap.length_Swap]; exact hn) (by omega)
        (DownInv_Swap ho h i n _ hn hjn hij hpj
          (fun c hc0 hcn hp => down_child_le ho h i n c hc0 hcn hp) hless inv)



/-! ## `heap.Push`, `heap.Pop` and `Peek` -/

theorem HeapOrdered_iff_HeapOn (le : Int → Int → Prop) (a : IntHeap) :
    HeapOrdered le a ↔ HeapOn le a a.length := by
  constructor
  · intro hp c hc0 hcn
    have hi : (c - 1) / 2 < a.length := by omega
    rcases Nat.even_or_odd c with ⟨k, hk⟩ | ⟨k, hk⟩
    · have e : c = 2 * ((c - 1) / 2) + 2 := by omega
      have := (hp ((c - 1) / 2) hi).2 (by omega)
      rw [← e] at this
      exact this
    · have e : c = 2 * ((c - 1) / 2) + 1 := by omega
      have := (hp ((c - 1) / 2) hi).1 (by omega)
      rw [← e] at this
      exact this
  · intro hc i _
    constructor
    · intro h1
      have := hc (2 * i + 1) (by omega) h1
      rwa [show (2 * i + 1 - 1) / 2 = i by omega] at this
    · intro h2
      have := hc (2 * i + 2) (by omega) h2
      rwa [show (2 * i + 2 - 1) / 2 = i by omega] at this

/-- In a heap-ordered slice the root is in order with every cell. -/
theorem HeapOn_root_le {le : Int → Int → Prop} (hrefl : ∀ a, le a a)
    (htrans : ∀ a b c, le a b → le b c → le a c) (h : IntHeap) (n : Nat)
    (hh : HeapOn le h n) (c : Nat) (hc : c < n) : le (h.getD 0 0) (h.getD c 0) := by
  induction c using Nat.strong_induction_on with
  | _ c ih =>
    by_cases hc0 : c = 0
    · subst hc0; exact hrefl _
    · have hp : (c - 1) / 2 < c := parent_lt (by omega)
      exact htrans _ _ _ (ih _ hp (by omega)) (hh c (by omega) hc)

theorem HeapOn_root_le_mem {le : Int → Int → Prop} (hrefl : ∀ a, le a a)
    (htrans : ∀ a b c, le a b → le b c → le a c) (h : IntHeap)
    (hh : HeapOn le h h.length) (x : Int) (hx : x ∈ h) : le (h.getD 0 0) x := by
  obtain ⟨c, hc, rfl⟩ := List.getElem_of_mem hx
  have := HeapOn_root_le hrefl htrans h h.length hh c hc
  rwa [List.getD_eq_getElem h 0 hc] at this

theorem heap.Push_length (less : IntHeap → Nat → Nat → Bool) (h : IntHeap) (x : Int) :
    (heap.Push less h x).length = h.length + 1 := by
  simp [heap.Push, heap.up_length, IntHeap.Push]

theorem heap.Push_perm (less : IntHeap → Nat → Nat → Bool) (h : IntHeap) (x : Int) :
    (heap.Push less h x).Perm (x :: h) := by
  unfold heap.Push
  simp only [IntHeap.Push, IntHeap.Len]
  refine (heap.up_perm less _ _ _ (by simp)).trans ?_
  exact List.perm_append_singleton x h

theorem heap.Push_heap {less : IntHeap → Nat → Nat → Bool} {le : Int → Int → Prop}
    (ho : HeapOrder less le) (h : IntHeap) (x : Int) (hh : HeapOn le h h.length) :
    HeapOn le (heap.Push less h x) (heap.Push less h x).length := by
  rw [heap.Push_length]
  unfold heap.Push
  simp only [IntHeap.Push, IntHeap.Len]
  have hlen : (h ++ [x]).length = h.length + 1 := by simp
  have key := heap.up_heap ho (h ++ [x]).length (h ++ [x]) ((h ++ [x]).length - 1)
    (by rw [hlen]; omega) (by rw [hlen]; omega) ?_
  · rw [hlen]; rw [hlen] at key; exact key
  · rw [hlen]
    refine ⟨?_, ?_⟩
    · intro c hc0 hcn hcj
      have hc : c < h.length := by omega
      have hp : (c - 1) / 2 < h.length := by omega
      rw [List.getD_append _ _ _ _ hp, List.getD_append _ _ _ _ hc]
      exact hh c hc0 hc
    · intro c hc0 hcn hp _
      omega

theorem IntHeap.Pop_eq (h : IntHeap) (n : Nat) (hn : h.length = n + 1) :
    IntHeap.Pop h = some (h.getD n 0, h.take n) := by
  unfold IntHeap.Pop
  have : h.getLast? = some (h.getD n 0) := by
    rw [List.getLast?_eq_getElem?, hn, List.getD_eq_getElem?_getD]
    have : n < h.length := by omega
    simp [this]
  rw [this, hn]
  rfl

theorem take_append_getD (h : IntHeap) (n : Nat) (hn : h.length = n + 1) :
    h = h.take n ++ [h.getD n 0] := by
  have hlt : n < h.length := by omega
  conv_lhs => rw [← List.take_append_drop n h]
  congr 1
  rw [List.drop_eq_getElem_cons hlt, List.getD_eq_getElem h 0 hlt]
  have : h.drop (n + 1) = [] := List.drop_eq_nil_of_le (by omega)
  rw [this]

/-- On an empty heap `heap.Pop` panics. -/
theorem heap.Pop_nil (less : IntHeap → Nat → Nat → Bool) : heap.Pop less [] = none := rfl

/-- On a heap-ordered non-empty heap `heap.Pop` returns the root and leaves a
heap-ordered slice holding the other cells. -/
theorem heap.Pop_spec {less : IntHeap → Nat → Nat → Bool} {le : Int → Int → Prop}
    (ho : HeapOrder less le) (h : IntHeap) (hne : h ≠ []) (hh : HeapOn le h h.length) :
    ∃ h1 : IntHeap, heap.Pop less h = some (h.getD 0 0, h1) ∧ h1.length + 1 = h.length ∧
      h.Perm (h.getD 0 0 :: h1) ∧ HeapOn le h1 h1.length := by
  have hpos : 0 < h.length := List.length_pos.2 hne
  obtain ⟨n, hn⟩ : ∃ n, h.length = n + 1 := ⟨h.length - 1, by omega⟩
  have hsl : (h.Swap 0 n).length = n + 1 := by rw [IntHeap.length_Swap, hn]
  have hdl : (heap.down less n (h.Swap 0 n) 0 n).length = n + 1 := by
    rw [heap.down_length, hsl]
  have hlast : (heap.down less n (h.Swap 0 n) 0 n).getD n 0 = h.getD 0 0 := by
    rw [heap.down_getD_ge less n _ 0 n (by omega) n (le_refl n),
      IntHeap.getD_Swap h hpos (by omega)]
    simp
  have hinv : DownInv le (h.Swap 0 n) n 0 := by
    refine ⟨?_, ?_⟩
    · intro c hc0 hcn hp
      rw [IntHeap.getD_Swap_of_ne h hpos (by omega) hp (by omega),
        IntHeap.getD_Swap_of_ne h hpos (by omega) (by omega) (by omega)]
      exact hh c hc0 (by omega)
    · intro c _ _ _ h0
      omega
  have hheap := heap.down_heap ho n (h.Swap 0 n) 0 n (by omega) (by omega) hinv
  refine ⟨(heap.down less n (h.Swap 0 n) 0 n).take n, ?_, ?_, ?_, ?_⟩
  · unfold heap.Pop
    simp only [IntHeap.Len]
    rw [if_neg (by omega)]
    simp only [hn, Nat.add_sub_cancel]
    rw [IntHeap.Pop_eq _ n hdl, hlast]
  · rw [List.length_take, hdl, hn]; omega
  · have h1 : (heap.down less n (h.Swap 0 n) 0 n).Perm h :=
      (heap.down_perm less n _ 0 n (by omega)).trans (IntHeap.Swap_perm h hpos (by omega))
    have h2 := take_append_getD _ n hdl
    rw [hlast] at h2
    rw [h2] at h1
    exact (h1.symm.trans (List.perm_append_singleton _ _))
  · have hl : ((heap.down less n (h.Swap 0 n) 0 n).take n).length = n := by
      rw [List.length_take, hdl]; omega
    rw [hl]
    intro c hc0 hcn
    have e : ∀ k, k < n → ((heap.down less n (h.Swap 0 n) 0 n).take n).getD k 0 =
        (heap.down less n (h.Swap 0 n) 0 n).getD k 0 := by
      intro k hk
      simp only [List.getD_eq_getElem?_getD, List.getElem?_take, if_pos hk]
    rw [e _ (by omega), e _ hcn]
    exact hheap c hc0 hcn

theorem IntHeap_Peek_eq (h : IntHeap) (hne : h ≠ []) : IntHeap.Peek h = some (h.getD 0 0, h) := by
  cases h with
  | nil => exact absurd rfl hne
  | cons x xs => rfl



/-! ## The three heap types -/

theorem IntHeap_heapOrder : HeapOrder IntHeap.Less (fun x y => x ≤ y) where
  less_iff := by intro h i j; simp [IntHeap.Less]
  total := fun a b => le_total a b
  trans := fun _ _ _ h1 h2 => le_trans h1 h2

theorem MinHeap_heapOrder : HeapOrder MinHeap.less (fun x y => x ≤ y) where
  less_iff := by intro h i j; simp [MinHeap.less, MinHeap.Less]
  total := fun a b => le_total a b
  trans := fun _ _ _ h1 h2 => le_trans h1 h2

theorem MaxHeap_heapOrder : HeapOrder MaxHeap.less (fun x y => x ≥ y) where
  less_iff := by intro h i j; simp [MaxHeap.less, MaxHeap.Less]
  total := fun a b => le_total b a
  trans := fun _ _ _ h1 h2 => ge_trans h1 h2

theorem minHeap_Push {less : IntHeap → Nat → Nat → Bool}
    (ho : HeapOrder less (fun x y => x ≤ y)) (h : IntHeap) (x : Int) (hh : isMinHeap h) :
    isMinHeap (heap.Push less h x) :=
  (HeapOrdered_iff_HeapOn _ _).2 (heap.Push_heap ho h x ((HeapOrdered_iff_HeapOn _ _).1 hh))

theorem maxHeap_Push (h : IntHeap) (x : Int) (hh : isMaxHeap h) :
    isMaxHeap (heap.Push MaxHeap.less h x) :=
  (HeapOrdered_iff_HeapOn _ _).2
    (heap.Push_heap MaxHeap_heapOrder h x ((HeapOrdered_iff_HeapOn _ _).1 hh))

theorem minHeap_Pop {less : IntHeap → Nat → Nat → Bool}
    (ho : HeapOrder less (fun x y => x ≤ y)) (h : IntHeap) (hne : h ≠ []) (hh : isMinHeap h) :
    ∃ h1 : IntHeap, heap.Pop less h = some (h.getD 0 0, h1) ∧ h1.length + 1 = h.length ∧
      h.Perm (h.getD 0 0 :: h1) ∧ isMinHeap h1 := by
  obtain ⟨h1, e, l, p, o⟩ := heap.Pop_spec ho h hne ((HeapOrdered_iff_HeapOn _ _).1 hh)
  exact ⟨h1, e, l, p, (HeapOrdered_iff_HeapOn _ _).2 o⟩

theorem maxHeap_Pop (h : IntHeap) (hne : h ≠ []) (hh : isMaxHeap h) :
    ∃ h1 : IntHeap, heap.Pop MaxHeap.less h = some (h.getD 0 0, h1) ∧
      h1.length + 1 = h.length ∧ h.Perm (h.getD 0 0 :: h1) ∧ isMaxHeap h1 := by
  obtain ⟨h1, e, l, p, o⟩ :=
    heap.Pop_spec MaxHeap_heapOrder h hne ((HeapOrdered_iff_HeapOn _ _).1 hh)
  exact ⟨h1, e, l, p, (HeapOrdered_iff_HeapOn _ _).2 o⟩

/-- The root of a min-heap is a least value of it. -/
theorem minHeap_root_le (h : IntHeap) (hh : isMinHeap h) (x : Int) (hx : x ∈ h) :
    h.getD 0 0 ≤ x :=
  @HeapOn_root_le_mem (fun x y => x ≤ y) (fun a => le_refl a)
    (fun _ _ _ h1 h2 => le_trans h1 h2) h ((HeapOrdered_iff_HeapOn _ _).1 hh) x hx

/-- The root of a max-heap is a greatest value of it. -/
theorem maxHeap_root_ge (h : IntHeap) (hh : isMaxHeap h) (x : Int) (hx : x ∈ h) :
    x ≤ h.getD 0 0 :=
  @HeapOn_root_le_mem (fun x y => x ≥ y) (fun a => le_refl a)
    (fun _ _ _ h1 h2 => ge_trans h1 h2) h ((HeapOrdered_iff_HeapOn _ _).1 hh) x hx

theorem root_mem (h : IntHeap) (hne : h ≠ []) : h.getD 0 0 ∈ h := by
  cases h with
  | nil => exact absurd rfl hne
  | cons x xs => simp

/-! ## `Insert` keeps the state invariant -/

theorem rebalance_spec (s : MedianHeap) (xs : List Int) (hc : Core s xs) :
    ∃ s1 : MedianHeap, s.rebalance = some s1 ∧ Core s1 xs ∧
      s1.Max.Len + s1.Min.Len = s.Max.Len + s.Min.Len ∧
      (s.Max.Len > s.Min.Len + 1 → s1.Max.Len + 1 = s.Max.Len) ∧
      (¬ s.Max.Len > s.Min.Len + 1 → s.Min.Len > s.Max.Len + 1 → s1.Max.Len = s.Max.Len + 1) ∧
      (¬ s.Max.Len > s.Min.Len + 1 → ¬ s.Min.Len > s.Max.Len + 1 → s1 = s) := by
  obtain ⟨⟨mn⟩, ⟨mx⟩⟩ := s
  obtain ⟨hmax, hmin, hsep, hperm⟩ := hc
  simp only [MaxHeap.Len, MinHeap.Len, IntHeap.Len] at *
  by_cases h1 : mx.length > mn.length + 1
  · have hne : mx ≠ [] := by intro e; rw [e] at h1; simp at h1
    obtain ⟨mx1, e1, l1, p1, o1⟩ := maxHeap_Pop mx hne hmax
    have hmn := heap.Push_perm MinHeap.less mn (mx.getD 0 0)
    have hl2 := heap.Push_length MinHeap.less mn (mx.getD 0 0)
    refine ⟨{ Min := ⟨heap.Push MinHeap.less mn (mx.getD 0 0)⟩, Max := ⟨mx1⟩ }, ?_, ?_, ?_⟩
    · unfold MedianHeap.rebalance
      simp only [MaxHeap.Len, MinHeap.Len, IntHeap.Len, if_pos h1, e1]
      rw [if_neg (by rw [hl2]; omega)]
    · refine ⟨o1, minHeap_Push MinHeap_heapOrder mn _ hmin, ?_, ?_⟩
      · intro a ha b hb
        have ha1 : a ∈ mx := p1.symm.subset (List.mem_cons_of_mem _ ha)
        rcases List.mem_cons.1 (hmn.subset hb) with e | hb1
        · rw [e]; exact maxHeap_root_ge mx hmax a ha1
        · exact hsep a ha1 b hb1
      · refine List.Perm.trans ?_ hperm
        refine (List.Perm.append_left mx1 hmn).trans ?_
        refine List.Perm.trans ?_ (List.Perm.append_right mn p1.symm)
        simp only [List.cons_append]
        exact List.perm_middle
    · simp only [MaxHeap.Len, MinHeap.Len, IntHeap.Len]
      refine ⟨by rw [hl2]; omega, fun _ => l1, fun h => absurd h1 h, fun h => absurd h1 h⟩
  · by_cases h2 : mn.length > mx.length + 1
    · have hne : mn ≠ [] := by intro e; rw [e] at h2; simp at h2
      obtain ⟨mn1, e1, l1, p1, o1⟩ := minHeap_Pop MinHeap_heapOrder mn hne hmin
      have hmx := heap.Push_perm MaxHeap.less mx (mn.getD 0 0)
      have hl2 := heap.Push_length MaxHeap.less mx (mn.getD 0 0)
      refine ⟨{ Min := ⟨mn1⟩, Max := ⟨heap.Push MaxHeap.less mx (mn.getD 0 0)⟩ }, ?_, ?_, ?_⟩
      · unfold MedianHeap.rebalance
        simp only [MaxHeap.Len, MinHeap.Len, IntHeap.Len, if_neg h1, if_pos h2, e1]
      · refine ⟨maxHeap_Push mx _ hmax, o1, ?_, ?_⟩
        · intro a ha b hb
          have hb1 : b ∈ mn := p1.symm.subset (List.mem_cons_of_mem _ hb)
          rcases List.mem_cons.1 (hmx.subset ha) with e | ha1
          · rw [e]; exact minHeap_root_le mn hmin b hb1
          · exact hsep a ha1 b hb1
        · refine List.Perm.trans ?_ hperm
          refine (List.Perm.append_right mn1 hmx).trans ?_
          refine List.Perm.trans ?_ (List.Perm.append_left mx p1.symm)
          simp only [List.cons_append]
          exact List.perm_middle.symm
      · simp only [MaxHeap.Len, MinHeap.Len, IntHeap.Len]
        refine ⟨by rw [hl2]; omega, fun h => absurd h h1, fun _ _ => hl2, fun _ h => absurd h2 h⟩
    · refine ⟨{ Min := ⟨mn⟩, Max := ⟨mx⟩ }, ?_, ⟨hmax, hmin, hsep, hperm⟩, rfl,
        fun h => absurd h h1, fun _ h => absurd h h2, fun _ _ => rfl⟩
      unfold MedianHeap.rebalance
      simp only [MaxHeap.Len, MinHeap.Len, IntHeap.Len, if_neg h1, if_neg h2]



theorem New_Inv : Inv New [] := by
  refine ⟨⟨?_, ?_, ?_, ?_⟩, ?_⟩
  · intro i hi; simp [New] at hi
  · intro i hi; simp [New] at hi
  · intro a ha; simp [New] at ha
  · simp [New]
  · left; simp [New, MinHeap.Len, MaxHeap.Len, IntHeap.Len]

theorem perm_snoc_left (mx mn xs : List Int) (v : Int) (mx1 : List Int)
    (hp : mx1.Perm (v :: mx)) (hperm : (mx ++ mn).Perm xs) :
    (mx1 ++ mn).Perm (xs ++ [v]) := by
  refine (List.Perm.append_right mn hp).trans ?_
  simp only [List.cons_append]
  exact (List.Perm.cons v hperm).trans (List.perm_append_singleton v xs).symm

theorem perm_snoc_right (mx mn xs : List Int) (v : Int) (mn1 : List Int)
    (hp : mn1.Perm (v :: mn)) (hperm : (mx ++ mn).Perm xs) :
    (mx ++ mn1).Perm (xs ++ [v]) := by
  refine (List.Perm.append_left mx hp).trans ?_
  refine List.perm_middle.trans ?_
  exact (List.Perm.cons v hperm).trans (List.perm_append_singleton v xs).symm

/-- An `Insert` of an int on a state that satisfies the invariant does not panic and
leads to a state that satisfies it for the longer input. -/
theorem Insert_int_Inv (s : MedianHeap) (xs : List Int) (v : Int) (hi : Inv s xs) :
    ∃ s1 : MedianHeap, s.Insert (GoAny.int v) = some s1 ∧ Inv s1 (xs ++ [v]) := by
  obtain ⟨⟨mn⟩, ⟨mx⟩⟩ := s
  obtain ⟨⟨hmax, hmin, hsep, hperm⟩, hsz⟩ := hi
  simp only [Sizes, MaxHeap.Len, MinHeap.Len, IntHeap.Len] at *
  by_cases hlt : mx.length < 2
  · have hmn : mn = [] := by
      rcases hsz with h | h
      · exact List.length_eq_zero.1 h.1
      · omega
    subst hmn
    refine ⟨{ Min := ⟨[]⟩, Max := ⟨heap.Push MaxHeap.less mx v⟩ }, ?_, ⟨?_, ?_, ?_, ?_⟩, ?_⟩
    · simp only [MedianHeap.Insert, MaxHeap.Len, IntHeap.Len, if_pos hlt]
    · exact maxHeap_Push mx v hmax
    · exact hmin
    · intro a _ b hb; simp at hb
    · exact perm_snoc_left mx [] xs v _ (heap.Push_perm _ mx v) hperm
    · left
      simp only [MaxHeap.Len, MinHeap.Len, IntHeap.Len, heap.Push_length, List.length_nil]
      exact ⟨trivial, by omega⟩
  · have hne : mx ≠ [] := by intro e; rw [e] at hlt; simp at hlt
    have hpeek : MaxHeap.Peek ⟨mx⟩ = some (mx.getD 0 0, ⟨mx⟩) := by
      simp only [MaxHeap.Peek, IntHeap_Peek_eq mx hne]
    by_cases hge : mx.getD 0 0 ≥ v
    · have hcore : Core { Min := ⟨mn⟩, Max := ⟨heap.Push MaxHeap.less mx v⟩ } (xs ++ [v]) := by
        refine ⟨maxHeap_Push mx v hmax, hmin, ?_, ?_⟩
        · intro a ha b hb
          rcases List.mem_cons.1 ((heap.Push_perm MaxHeap.less mx v).subset ha) with e | ha1
          · rw [e]; exact le_trans hge (hsep _ (root_mem mx hne) b hb)
          · exact hsep a ha1 b hb
        · exact perm_snoc_left mx mn xs v _ (heap.Push_perm _ mx v) hperm
      obtain ⟨s1, e1, c1, z0, z1, z2, z3⟩ := rebalance_spec _ _ hcore
      refine ⟨s1, ?_, c1, ?_⟩
      · simp only [MedianHeap.Insert, MaxHeap.Len, IntHeap.Len, if_neg hlt, hpeek, if_pos hge]
        exact e1
      · simp only [MaxHeap.Len, MinHeap.Len, IntHeap.Len, heap.Push_length] at z0 z1 z2 z3
        simp only [Sizes, MaxHeap.Len, MinHeap.Len, IntHeap.Len]
        by_cases c : mx.length + 1 > mn.length + 1
        · have := z1 c
          omega
        · have c2 : ¬ mn.length > mx.length + 1 + 1 := by omega
          have := z3 c c2
          rw [this]
          simp only [heap.Push_length]
          omega
    · have hcore : Core { Min := ⟨heap.Push MinHeap.less mn v⟩, Max := ⟨mx⟩ } (xs ++ [v]) := by
        refine ⟨hmax, minHeap_Push MinHeap_heapOrder mn v hmin, ?_, ?_⟩
        · intro a ha b hb
          rcases List.mem_cons.1 ((heap.Push_perm MinHeap.less mn v).subset hb) with e | hb1
          · rw [e]; exact le_of_lt (lt_of_le_of_lt (maxHeap_root_ge mx hmax a ha) (not_le.1 hge))
          · exact hsep a ha b hb1
        · exact perm_snoc_right mx mn xs v _ (heap.Push_perm _ mn v) hperm
      obtain ⟨s1, e1, c1, z0, z1, z2, z3⟩ := rebalance_spec _ _ hcore
      refine ⟨s1, ?_, c1, ?_⟩
      · simp only [MedianHeap.Insert, MaxHeap.Len, IntHeap.Len, if_neg hlt, hpeek, if_neg hge]
        exact e1
      · simp only [MaxHeap.Len, MinHeap.Len, IntHeap.Len, heap.Push_length] at z0 z1 z2 z3
        simp only [Sizes, MaxHeap.Len, MinHeap.Len, IntHeap.Len]
        by_cases c : mx.length > mn.length + 1 + 1
        · omega
        · by_cases c2 : mn.length + 1 > mx.length + 1
          · have := z2 c c2
            omega
          · have := z3 c c2
            rw [this]
            simp only [heap.Push_length]
            omega

theorem insertAny_int_Inv (vs : List Int) (s : MedianHeap) (xs : List Int) (hi : Inv s xs) :
    ∃ s1 : MedianHeap, s.insertAny (vs.map GoAny.int) = some s1 ∧ Inv s1 (xs ++ vs) := by
  induction vs generalizing s xs with
  | nil => exact ⟨s, rfl, by simpa using hi⟩
  | cons v vs ih =>
    obtain ⟨s1, e1, i1⟩ := Insert_int_Inv s xs v hi
    obtain ⟨s2, e2, i2⟩ := ih s1 (xs ++ [v]) i1
    refine ⟨s2, ?_, by simpa using i2⟩
    simp only [List.map_cons, MedianHeap.insertAny, e1]
    exact e2

/-- Inserting any list of ints into `New()` never panics, and the state reached
satisfies the invariant for that list. -/
theorem insertAll_Inv (vs : List Int) : ∃ s : MedianHeap, insertAll vs = some s ∧ Inv s vs := by
  have := insertAny_int_Inv vs New [] New_Inv
  simpa [insertAll] using this



/-! ## The sorted sequence and the roots of the two heaps -/

theorem sortAsc_perm (xs : List Int) : (sortAsc xs).Perm xs :=
  List.perm_insertionSort _ xs

theorem sortAsc_sorted (xs : List Int) : (sortAsc xs).Pairwise (fun a b => a ≤ b) :=
  List.sorted_insertionSort (fun (a b : Int) => a ≤ b) xs

theorem sortAsc_length (xs : List Int) : (sortAsc xs).length = xs.length :=
  List.length_insertionSort _ xs

theorem sortAsc_split (A B xs : List Int) (hp : (A ++ B).Perm xs)
    (hs : ∀ a ∈ A, ∀ b ∈ B, a ≤ b) : sortAsc xs = sortAsc A ++ sortAsc B := by
  refine List.eq_of_perm_of_sorted (r := fun (a b : Int) => a ≤ b) ?_ (sortAsc_sorted xs) ?_
  · exact (sortAsc_perm xs).trans
      (hp.symm.trans ((sortAsc_perm A).symm.append (sortAsc_perm B).symm))
  · refine List.pairwise_append.2 ⟨sortAsc_sorted A, sortAsc_sorted B, ?_⟩
    intro a ha b hb
    exact hs a ((sortAsc_perm A).mem_iff.1 ha) b ((sortAsc_perm B).mem_iff.1 hb)

theorem sortAsc_last (A : List Int) (m : Int) (hm : m ∈ A) (hmax : ∀ a ∈ A, a ≤ m) :
    (sortAsc A)[A.length - 1]? = some m := by
  have hlen := sortAsc_length A
  have hpos : 0 < A.length := List.length_pos_of_mem hm
  have hl : A.length - 1 < (sortAsc A).length := by omega
  rw [List.getElem?_eq_getElem hl]
  congr 1
  obtain ⟨k, hk, e⟩ := List.getElem_of_mem ((sortAsc_perm A).mem_iff.2 hm)
  have h1 : (sortAsc A)[A.length - 1] ≤ m :=
    hmax _ ((sortAsc_perm A).mem_iff.1 (List.getElem_mem hl))
  by_cases hkl : k = A.length - 1
  · subst hkl; exact e
  · have h2 := List.pairwise_iff_getElem.1 (sortAsc_sorted A) k (A.length - 1) hk hl (by omega)
    rw [e] at h2
    exact le_antisymm h1 h2

theorem sortAsc_head (B : List Int) (m : Int) (hm : m ∈ B) (hmin : ∀ b ∈ B, m ≤ b) :
    (sortAsc B)[0]? = some m := by
  have hlen := sortAsc_length B
  have hpos : 0 < B.length := List.length_pos_of_mem hm
  have hl : 0 < (sortAsc B).length := by omega
  rw [List.getElem?_eq_getElem hl]
  congr 1
  obtain ⟨k, hk, e⟩ := List.getElem_of_mem ((sortAsc_perm B).mem_iff.2 hm)
  have h1 : m ≤ (sortAsc B)[0] :=
    hmin _ ((sortAsc_perm B).mem_iff.1 (List.getElem_mem hl))
  by_cases hkl : k = 0
  · subst hkl; exact e
  · have h2 := List.pairwise_iff_getElem.1 (sortAsc_sorted B) 0 k hl hk (by omega)
    rw [e] at h2
    exact le_antisymm h2 h1

/-- The root of `Max` is the element of the sorted input just below the split. -/
theorem Core_max_root (s : MedianHeap) (xs : List Int) (hc : Core s xs)
    (hne : s.Max.IntHeap ≠ []) :
    (sortAsc xs)[s.Max.Len - 1]? = some (s.Max.IntHeap.getD 0 0) := by
  rw [sortAsc_split _ _ xs hc.perm hc.sep]
  have hpos : 0 < s.Max.IntHeap.length := List.length_pos.2 hne
  rw [List.getElem?_append_left (by rw [sortAsc_length]; simp only [MaxHeap.Len, IntHeap.Len]; omega)]
  exact sortAsc_last _ _ (root_mem _ hne) (maxHeap_root_ge _ hc.maxOrd)

/-- The root of `Min` is the element of the sorted input just above the split. -/
theorem Core_min_root (s : MedianHeap) (xs : List Int) (hc : Core s xs)
    (hne : s.Min.IntHeap ≠ []) :
    (sortAsc xs)[s.Max.Len]? = some (s.Min.IntHeap.getD 0 0) := by
  rw [sortAsc_split _ _ xs hc.perm hc.sep]
  rw [List.getElem?_append_right (by rw [sortAsc_length]; simp only [MaxHeap.Len, IntHeap.Len]; omega)]
  rw [sortAsc_length]
  simp only [MaxHeap.Len, IntHeap.Len, Nat.sub_self]
  exact sortAsc_head _ _ (root_mem _ hne) (minHeap_root_le _ hc.minOrd)

theorem Core_length (s : MedianHeap) (xs : List Int) (hc : Core s xs) :
    s.Max.Len + s.Min.Len = xs.length := by
  have := hc.perm.length_eq
  simpa [MaxHeap.Len, MinHeap.Len, IntHeap.Len] using this

theorem ne_nil_of_Len_pos (h : IntHeap) (hl : 0 < h.length) : h ≠ [] :=
  List.length_pos.1 hl

theorem MaxHeap_Peek_eq (m : MaxHeap) (hl : 0 < m.Len) :
    m.Peek = some (m.IntHeap.getD 0 0, m) := by
  obtain ⟨d⟩ := m
  simp only [MaxHeap.Peek, IntHeap_Peek_eq d (ne_nil_of_Len_pos d hl)]

theorem MinHeap_Peek_eq (m : MinHeap) (hl : 0 < m.Len) :
    m.Peek = some (m.IntHeap.getD 0 0, m) := by
  obtain ⟨d⟩ := m
  simp only [MinHeap.Peek, IntHeap_Peek_eq d (ne_nil_of_Len_pos d hl)]

/-- The result of `Median()` when `Max` is the longer heap (src/main.go lines 105-109). -/
theorem Median_max_longer (s : MedianHeap) (h : s.Max.Len > s.Min.Len) :
    s.Median = some (s.Max.IntHeap.getD 0 0, none) := by
  unfold MedianHeap.Median
  rw [if_neg (by omega), if_neg (by omega), if_pos h, MaxHeap_Peek_eq s.Max (by omega)]

/-- The result of `Median()` when `Min` is the longer heap (src/main.go lines 109-113). -/
theorem Median_min_longer (s : MedianHeap) (h : s.Min.Len > s.Max.Len) :
    s.Median = some (s.Min.IntHeap.getD 0 0, none) := by
  unfold MedianHeap.Median
  rw [if_neg (by omega), if_neg (by omega), if_neg (by omega), MinHeap_Peek_eq s.Min (by omega)]

/-- The result of `Median()` when both heaps have the same positive length (src/main.go lines
98-103): the 64-bit sum of the two roots, halved toward zero. -/
theorem Median_equal (s : MedianHeap) (h : s.Max.Len = s.Min.Len) (hpos : 0 < s.Max.Len) :
    s.Median =
      some (Int.tdiv (wrap64 (s.Max.IntHeap.getD 0 0 + s.Min.IntHeap.getD 0 0)) 2, none) := by
  unfold MedianHeap.Median
  rw [if_neg (by omega), if_pos h, MaxHeap_Peek_eq s.Max hpos, MinHeap_Peek_eq s.Min (by omega)]



/-! ## `Median` on the states reached from `New()` -/

theorem sortAsc_singleton (v : Int) : sortAsc [v] = [v] := rfl

/-- Odd number of ints: `Median()` is the middle element of the sorted input. -/
theorem medianOf_odd (xs : List Int) (hodd : xs.length % 2 = 1) :
    ∃ m : Int, medianOf xs = some (m, none) ∧ (sortAsc xs)[(xs.length - 1) / 2]? = some m := by
  obtain ⟨s, es, ⟨hc, hz⟩⟩ := insertAll_Inv xs
  have hlen := Core_length s xs hc
  have hmed : medianOf xs = s.Median := by simp only [medianOf, es]
  by_cases hgt : s.Max.Len > s.Min.Len
  · refine ⟨s.Max.IntHeap.getD 0 0, ?_, ?_⟩
    · rw [hmed]; exact Median_max_longer s hgt
    · have hne : s.Max.IntHeap ≠ [] := ne_nil_of_Len_pos _ (by
        have : 0 < s.Max.Len := by omega
        simpa [MaxHeap.Len, IntHeap.Len] using this)
      have := Core_max_root s xs hc hne
      have e : (xs.length - 1) / 2 = s.Max.Len - 1 := by
        rcases hz with h | h <;> omega
      rw [e]; exact this
  · have hlt : s.Min.Len > s.Max.Len := by omega
    refine ⟨s.Min.IntHeap.getD 0 0, ?_, ?_⟩
    · rw [hmed]; exact Median_min_longer s hlt
    · have hne : s.Min.IntHeap ≠ [] := ne_nil_of_Len_pos _ (by
        have : 0 < s.Min.Len := by omega
        simpa [MinHeap.Len, IntHeap.Len] using this)
      have := Core_min_root s xs hc hne
      have e : (xs.length - 1) / 2 = s.Max.Len := by
        rcases hz with h | h <;> omega
      rw [e]; exact this

/-- Even number of ints, at least four: `Median()` is the 64-bit sum of the two
middle elements of the sorted input, halved toward zero. -/
theorem medianOf_even (xs : List Int) (heven : xs.length % 2 = 0) (h4 : 4 ≤ xs.length) :
    ∃ lo hi : Int, (sortAsc xs)[xs.length / 2 - 1]? = some lo ∧
      (sortAsc xs)[xs.length / 2]? = some hi ∧
      medianOf xs = some (Int.tdiv (wrap64 (lo + hi)) 2, none) := by
  obtain ⟨s, es, ⟨hc, hz⟩⟩ := insertAll_Inv xs
  have hlen := Core_length s xs hc
  have hmed : medianOf xs = s.Median := by simp only [medianOf, es]
  have heq : s.Max.Len = s.Min.Len := by rcases hz with h | h <;> omega
  have hmx : s.Max.IntHeap ≠ [] := ne_nil_of_Len_pos _ (by
    have : 0 < s.Max.Len := by omega
    simpa [MaxHeap.Len, IntHeap.Len] using this)
  have hmn : s.Min.IntHeap ≠ [] := ne_nil_of_Len_pos _ (by
    have : 0 < s.Min.Len := by omega
    simpa [MinHeap.Len, IntHeap.Len] using this)
  refine ⟨s.Max.IntHeap.getD 0 0, s.Min.IntHeap.getD 0 0, ?_, ?_, ?_⟩
  · have := Core_max_root s xs hc hmx
    rwa [show s.Max.Len - 1 = xs.length / 2 - 1 by omega] at this
  · have := Core_min_root s xs hc hmn
    rwa [show s.Max.Len = xs.length / 2 by omega] at this
  · rw [hmed]; exact Median_equal s heq (by omega)

/-- Any positive number of ints: `Median()` returns a value and the nil error. -/
theorem medianOf_ok (xs : List Int) (hne : xs ≠ []) : ∃ v : Int, medianOf xs = some (v, none) := by
  obtain ⟨s, es, ⟨hc, hz⟩⟩ := insertAll_Inv xs
  have hlen := Core_length s xs hc
  have hpos : 0 < xs.length := List.length_pos.2 hne
  have hmed : medianOf xs = s.Median := by simp only [medianOf, es]
  rw [hmed]
  by_cases hgt : s.Max.Len > s.Min.Len
  · exact ⟨_, Median_max_longer s hgt⟩
  · by_cases hlt : s.Min.Len > s.Max.Len
    · exact ⟨_, Median_min_longer s hlt⟩
    · exact ⟨_, Median_equal s (by omega) (by omega)⟩

/-- An `Insert` of a value that is not an int returns at once (src/main.go lines
58-61). -/
theorem Insert_of_not_int (s : MedianHeap) (value : GoAny) (h : ∀ v : Int, value ≠ GoAny.int v) :
    s.Insert value = some s := by
  cases value with
  | int v => exact absurd rfl (h v)
  | str _ => rfl
  | bool _ => rfl
  | nil => rfl

theorem insertAny_ints (vs : List GoAny) (s : MedianHeap) :
    s.insertAny vs = s.insertAny ((ints vs).map GoAny.int) := by
  induction vs generalizing s with
  | nil => rfl
  | cons v vs ih =>
    cases v with
    | int x =>
      simp only [ints, List.map_cons, MedianHeap.insertAny]
      cases s.Insert (GoAny.int x) with
      | none => rfl
      | some s1 => exact ih s1
    | str x => simp only [ints, MedianHeap.insertAny, MedianHeap.Insert]; exact ih s
    | bool x => simp only [ints, MedianHeap.insertAny, MedianHeap.Insert]; exact ih s
    | nil => simp only [ints, MedianHeap.insertAny, MedianHeap.Insert]; exact ih s



/-! ## Sequences of `heap.Push` and `heap.Pop` -/

theorem HeapOn_nil (le : Int → Int → Prop) : HeapOn le [] ([] : IntHeap).length := by
  intro c _ hc; simp at hc

theorem heap.pushAll_spec {less : IntHeap → Nat → Nat → Bool} {le : Int → Int → Prop}
    (ho : HeapOrder less le) (xs : List Int) (h : IntHeap) (hh : HeapOn le h h.length) :
    HeapOn le (heap.pushAll less h xs) (heap.pushAll less h xs).length ∧
      (heap.pushAll less h xs).Perm (h ++ xs) := by
  induction xs generalizing h with
  | nil => exact ⟨hh, by simp [heap.pushAll]⟩
  | cons x xs ih =>
    obtain ⟨o, p⟩ := ih (heap.Push less h x) (heap.Push_heap ho h x hh)
    refine ⟨o, ?_⟩
    have e : heap.pushAll less h (x :: xs) = heap.pushAll less (heap.Push less h x) xs := rfl
    rw [e]
    refine p.trans ?_
    refine (List.Perm.append_right xs (heap.Push_perm less h x)).trans ?_
    simp only [List.cons_append]
    exact List.perm_middle.symm

theorem heap.drain_spec {less : IntHeap → Nat → Nat → Bool} {le : Int → Int → Prop}
    (ho : HeapOrder less le) (fuel : Nat) (h : IntHeap) (hh : HeapOn le h h.length)
    (hf : h.length ≤ fuel) :
    ∃ ys : List Int, heap.drain less fuel h = some (ys, []) ∧ ys.Perm h ∧ ys.Pairwise le := by
  have hrefl : ∀ a, le a a := fun a => (ho.total a a).elim id id
  induction fuel generalizing h with
  | zero =>
    have : h = [] := List.length_eq_zero.1 (by omega)
    subst this
    exact ⟨[], rfl, List.Perm.refl _, List.Pairwise.nil⟩
  | succ f ih =>
    by_cases hne : h = []
    · subst hne
      exact ⟨[], rfl, List.Perm.refl _, List.Pairwise.nil⟩
    · obtain ⟨h1, e1, l1, p1, o1⟩ := heap.Pop_spec ho h hne hh
      obtain ⟨ys, e2, p2, s2⟩ := ih h1 o1 (by omega)
      refine ⟨h.getD 0 0 :: ys, ?_, ?_, ?_⟩
      · have hpos : h.Len > 0 := List.length_pos.2 hne
        simp only [heap.drain, if_pos hpos, e1, e2]
      · exact (List.Perm.cons _ p2).trans p1.symm
      · refine List.Pairwise.cons ?_ s2
        intro y hy
        have hy1 : y ∈ h := p1.symm.subset (List.mem_cons_of_mem _ (p2.subset hy))
        exact HeapOn_root_le_mem hrefl ho.trans h hh y hy1

/-- Push all of `xs` on an empty heap, then pop until the heap is empty: the loop
ends on the empty heap and the popped values are `xs` in heap order. -/
theorem heap.sort_spec {less : IntHeap → Nat → Nat → Bool} {le : Int → Int → Prop}
    (ho : HeapOrder less le) (xs : List Int) :
    ∃ ys : List Int, heap.popAll less (heap.pushAll less [] xs) = some (ys, []) ∧
      ys.Perm xs ∧ ys.Pairwise le := by
  obtain ⟨o, p⟩ := heap.pushAll_spec ho xs [] (HeapOn_nil le)
  obtain ⟨ys, e, p2, s⟩ := heap.drain_spec ho _ _ o (le_refl _)
  exact ⟨ys, e, p2.trans (by simpa using p), s⟩

theorem heap.run_spec {less : IntHeap → Nat → Nat → Bool} {le : Int → Int → Prop}
    (ho : HeapOrder less le) (ops : List HeapOp) (h : IntHeap) (hh : HeapOn le h h.length)
    (hv : popsNonEmpty h.length ops = true) :
    ∃ (h1 : IntHeap) (popped : List Int), heap.run less h ops = some (h1, popped) ∧
      HeapOn le h1 h1.length ∧ (h1 ++ popped).Perm (h ++ pushed ops) := by
  induction ops generalizing h with
  | nil => exact ⟨h, [], rfl, hh, by simp [pushed]⟩
  | cons op ops ih =>
    cases op with
    | push v =>
      have hv1 : popsNonEmpty (heap.Push less h v).length ops = true := by
        rw [heap.Push_length]; simpa [popsNonEmpty] using hv
      obtain ⟨h1, popped, e, o, p⟩ := ih (heap.Push less h v) (heap.Push_heap ho h v hh) hv1
      refine ⟨h1, popped, e, o, p.trans ?_⟩
      refine (List.Perm.append_right _ (heap.Push_perm less h v)).trans ?_
      simp only [pushed, List.cons_append]
      exact List.perm_middle.symm
    | pop =>
      have hne : h ≠ [] := by
        intro e; subst e
        simp [popsNonEmpty] at hv
      obtain ⟨h0, e0, l0, p0, o0⟩ := heap.Pop_spec ho h hne hh
      have hv1 : popsNonEmpty h0.length ops = true := by
        rw [← l0] at hv; simpa [popsNonEmpty] using hv
      obtain ⟨h1, popped, e, o, p⟩ := ih h0 o0 hv1
      refine ⟨h1, h.getD 0 0 :: popped, ?_, o, ?_⟩
      · simp only [heap.run, e0, e]
      · refine List.perm_middle.trans ?_
        refine (List.Perm.cons _ p).trans ?_
        simp only [pushed]
        rw [← List.cons_append]
        exact List.Perm.append_right _ p0.symm



/-! ## The claims -/

/-- C1. For every sequence of ints of odd length inserted one by one into a fresh
`New()`, `Median()` returns the nil error and the element at index `(n-1)/2` of
the sequence sorted ascending; and a single inserted value `v` gives `v`. -/
theorem median_odd_is_middle (xs : List Int) (hodd : xs.length % 2 = 1) :
    (∃ m : Int, medianOf xs = some (m, none) ∧
      (sortAsc xs)[(xs.length - 1) / 2]? = some m) ∧
    (∀ v : Int, medianOf [v] = some (v, none)) := by
  refine ⟨medianOf_odd xs hodd, ?_⟩
  intro v
  obtain ⟨m, h1, h2⟩ := medianOf_odd [v] rfl
  have : m = v := by
    rw [sortAsc_singleton] at h2
    simpa using h2.symm
  rw [this] at h1; exact h1

theorem median_odd_is_middle_witness :
    [3, 1, 2].length % 2 = 1 ∧
      ((∃ m : Int, medianOf [3, 1, 2] = some (m, none) ∧
        (sortAsc [3, 1, 2])[([3, 1, 2].length - 1) / 2]? = some m) ∧
      (∀ v : Int, medianOf [v] = some (v, none))) :=
  ⟨by decide, median_odd_is_middle [3, 1, 2] (by decide)⟩

/-- C2, as the code has it. For every sequence of ints of even length `n >= 4`
inserted one by one into a fresh `New()`, `Median()` returns the nil error and
`(lower_mid + upper_mid) / 2` with truncating division, where the two values are
the elements at indices `n/2 - 1` and `n/2` of the sequence sorted ascending and
their sum is taken in Go's 64-bit `int`, wrapping on overflow. -/
theorem median_even_from_four (xs : List Int) (heven : xs.length % 2 = 0)
    (h4 : 4 ≤ xs.length) :
    ∃ lo hi : Int, (sortAsc xs)[xs.length / 2 - 1]? = some lo ∧
      (sortAsc xs)[xs.length / 2]? = some hi ∧
      medianOf xs = some (Int.tdiv (wrap64 (lo + hi)) 2, none) :=
  medianOf_even xs heven h4

theorem median_even_from_four_witness :
    [4, 1, 3, 2].length % 2 = 0 ∧ 4 ≤ [4, 1, 3, 2].length ∧
      ∃ lo hi : Int, (sortAsc [4, 1, 3, 2])[[4, 1, 3, 2].length / 2 - 1]? = some lo ∧
        (sortAsc [4, 1, 3, 2])[[4, 1, 3, 2].length / 2]? = some hi ∧
        medianOf [4, 1, 3, 2] = some (Int.tdiv (wrap64 (lo + hi)) 2, none) :=
  ⟨by decide, by decide, median_even_from_four [4, 1, 3, 2] (by decide) (by decide)⟩

/-- C2 as stated fails at two inputs. After `Insert(1)` and `Insert(5)` both
values sit in `Max`, `Median()` takes the `Max.Len() > Min.Len()` branch and
returns `5`, not `(1 + 5) / 2 = 3`. After four insertions of the largest `int`
the sum of the two middle elements wraps to `-2` and `Median()` returns `-1`, not
the middle value itself. -/
theorem median_even_counterexample :
    ((sortAsc [1, 5])[[1, 5].length / 2 - 1]? = some 1 ∧
      (sortAsc [1, 5])[[1, 5].length / 2]? = some 5 ∧
      medianOf [1, 5] = some (5, none) ∧
      medianOf [1, 5] ≠ some (Int.tdiv (1 + 5) 2, none)) ∧
    ((sortAsc [9223372036854775807, 9223372036854775807, 9223372036854775807,
        9223372036854775807])[1]? = some 9223372036854775807 ∧
      (sortAsc [9223372036854775807, 9223372036854775807, 9223372036854775807,
        9223372036854775807])[2]? = some 9223372036854775807 ∧
      medianOf [9223372036854775807, 9223372036854775807, 9223372036854775807,
        9223372036854775807] = some (-1, none) ∧
      medianOf [9223372036854775807, 9223372036854775807, 9223372036854775807,
        9223372036854775807] ≠
        some (Int.tdiv (9223372036854775807 + 9223372036854775807) 2, none)) := by
  decide

/-- C3 as stated fails after the second `Insert`. After `Insert(1)` and
`Insert(2)` the guard `h.Max.Len() < 2` of line 63 has sent both values to `Max`
and returned: `Max.Len()` is 2 and `Min.Len()` is 0, a difference of 2. -/
theorem sizes_after_two_inserts :
    ∃ s : MedianHeap, insertAll [1, 2] = some s ∧ s.Max.Len = 2 ∧ s.Min.Len = 0 ∧
      ¬ (s.Max.Len ≤ s.Min.Len + 1 ∧ s.Min.Len ≤ s.Max.Len + 1) :=
  ⟨⟨⟨[]⟩, ⟨[2, 1]⟩⟩, by decide, by decide, by decide, by decide⟩

/-- C3, as the code has it. For every sequence of ints inserted one by one into a
fresh `New()`, after every `Insert` but the second (after the first `k` values,
for every `k` other than 2) the sizes of the two heaps satisfy
`|Max.Len() - Min.Len()| <= 1`; after the second `Insert` both values are in
`Max`: `Max.Len()` is 2 and `Min.Len()` is 0. -/
theorem sizes_balanced_except_after_second (xs : List Int) (k : Nat)
    (hk : (xs.take k).length ≠ 2) :
    (∃ s : MedianHeap, insertAll (xs.take k) = some s ∧
      s.Max.Len ≤ s.Min.Len + 1 ∧ s.Min.Len ≤ s.Max.Len + 1) ∧
    (∀ ys : List Int, ys.length = 2 →
      ∃ s : MedianHeap, insertAll ys = some s ∧ s.Max.Len = 2 ∧ s.Min.Len = 0) := by
  constructor
  · obtain ⟨s, es, ⟨hc, hz⟩⟩ := insertAll_Inv (xs.take k)
    have hlen := Core_length s _ hc
    refine ⟨s, es, ?_, ?_⟩ <;> rcases hz with h | h <;> omega
  · intro ys h2
    obtain ⟨s, es, ⟨hc, hz⟩⟩ := insertAll_Inv ys
    have hlen := Core_length s ys hc
    refine ⟨s, es, ?_, ?_⟩ <;> rcases hz with h | h <;> omega

theorem sizes_balanced_except_after_second_witness :
    (List.take 3 [7, 2, 9, 4]).length ≠ 2 ∧
    ∃ s : MedianHeap, insertAll (List.take 3 [7, 2, 9, 4]) = some s ∧
      s.Max.Len ≤ s.Min.Len + 1 ∧ s.Min.Len ≤ s.Max.Len + 1 :=
  ⟨by decide, (sizes_balanced_except_after_second [7, 2, 9, 4] 3 (by decide)).1⟩

/-- C4. For every sequence of ints inserted one by one into a fresh `New()`, after
every `Insert` (after the first `k` values, for every `k`) every value stored in
`Max` is at most every value stored in `Min` (invariant I1). -/
theorem max_le_min_after_every_insert (xs : List Int) (k : Nat) :
    ∃ s : MedianHeap, insertAll (xs.take k) = some s ∧
      ∀ a ∈ s.Max.IntHeap, ∀ b ∈ s.Min.IntHeap, a ≤ b := by
  obtain ⟨s, es, hi⟩ := insertAll_Inv (xs.take k)
  exact ⟨s, es, hi.core.sep⟩

/-- C5. `Median()` returns an error exactly when no int has been inserted: on
`New()` it returns `0` and a non-nil error; after one or more `Insert` calls of
ints it returns the nil error; and for any values handed to `Insert`, the error
is non-nil exactly when none of them is an int. -/
theorem median_error_iff_nothing_inserted :
    New.Median = some (0, some "mean heap is empty") ∧
    (∀ xs : List Int, xs ≠ [] → ∃ v : Int, medianOf xs = some (v, none)) ∧
    (∀ vs : List GoAny, ∃ (s : MedianHeap) (r : Int × GoError),
      New.insertAny vs = some s ∧ s.Median = some r ∧ (r.2 ≠ none ↔ ints vs = [])) := by
  refine ⟨rfl, medianOf_ok, ?_⟩
  intro vs
  obtain ⟨s, es, hi⟩ := insertAll_Inv (ints vs)
  have e1 : New.insertAny vs = some s := by
    rw [insertAny_ints]; exact es
  by_cases hn : ints vs = []
  · rw [hn] at es
    have hs : s = New := by
      have : insertAll [] = some New := rfl
      rw [this] at es
      exact (Option.some.inj es).symm
    refine ⟨s, (0, some "mean heap is empty"), e1, ?_, ?_⟩
    · rw [hs]; rfl
    · simp [hn]
  · obtain ⟨v, hv⟩ := medianOf_ok (ints vs) hn
    have hm : medianOf (ints vs) = s.Median := by simp only [medianOf, es]
    refine ⟨s, (v, none), e1, ?_, ?_⟩
    · rw [← hm]; exact hv
    · simp [hn]

theorem median_error_iff_nothing_inserted_witness :
    ∃ v : Int, medianOf [4, 2] = some (v, none) :=
  median_error_iff_nothing_inserted.2.1 [4, 2] (by decide)



/-- C6. For every finite sequence of ints pushed with `heap.Push` onto an empty
heap, popping with `heap.Pop` until the heap is empty ends on the empty heap and
yields a permutation of the pushed values, sorted ascending for `IntHeap` and
`MinHeap` and descending for `MaxHeap`; the pushes 2,1,5,3,7,-1,6,8,11,16 on an
`IntHeap` come out as -1,1,2,3,5,6,7,8,11,16. -/
theorem pop_until_empty_sorts (xs : List Int) :
    (∃ ys : List Int, heap.popAll IntHeap.Less (heap.pushAll IntHeap.Less [] xs) = some (ys, []) ∧
      ys.Perm xs ∧ ys.Pairwise (fun a b => a ≤ b)) ∧
    (∃ ys : List Int, heap.popAll MinHeap.less (heap.pushAll MinHeap.less [] xs) = some (ys, []) ∧
      ys.Perm xs ∧ ys.Pairwise (fun a b => a ≤ b)) ∧
    (∃ ys : List Int, heap.popAll MaxHeap.less (heap.pushAll MaxHeap.less [] xs) = some (ys, []) ∧
      ys.Perm xs ∧ ys.Pairwise (fun a b => a ≥ b)) ∧
    heap.popAll IntHeap.Less (heap.pushAll IntHeap.Less [] [2, 1, 5, 3, 7, -1, 6, 8, 11, 16]) =
      some ([-1, 1, 2, 3, 5, 6, 7, 8, 11, 16], []) :=
  ⟨heap.sort_spec IntHeap_heapOrder xs, heap.sort_spec MinHeap_heapOrder xs,
    heap.sort_spec MaxHeap_heapOrder xs, by decide⟩

/-- C7. For every interleaving of `heap.Push` and `heap.Pop` calls from an empty
heap that pops only non-empty heaps, the run does not panic and the heap at the
end holds exactly the values pushed and not yet popped; when it is non-empty,
`Peek()` returns a least value of it (`IntHeap`, `MinHeap`) or a greatest value
of it (`MaxHeap`), and hands back the heap unchanged. -/
theorem peek_is_extreme (ops : List HeapOp) (hv : popsNonEmpty 0 ops = true) :
    (∃ (h : IntHeap) (popped : List Int), heap.run IntHeap.Less [] ops = some (h, popped) ∧
      (h ++ popped).Perm (pushed ops) ∧
      (h ≠ [] → ∃ m : Int, IntHeap.Peek h = some (m, h) ∧ m ∈ h ∧ ∀ x ∈ h, m ≤ x)) ∧
    (∃ (h : IntHeap) (popped : List Int), heap.run MinHeap.less [] ops = some (h, popped) ∧
      (h ++ popped).Perm (pushed ops) ∧
      (h ≠ [] → ∃ m : Int, MinHeap.Peek ⟨h⟩ = some (m, ⟨h⟩) ∧ m ∈ h ∧ ∀ x ∈ h, m ≤ x)) ∧
    (∃ (h : IntHeap) (popped : List Int), heap.run MaxHeap.less [] ops = some (h, popped) ∧
      (h ++ popped).Perm (pushed ops) ∧
      (h ≠ [] → ∃ m : Int, MaxHeap.Peek ⟨h⟩ = some (m, ⟨h⟩) ∧ m ∈ h ∧ ∀ x ∈ h, x ≤ m)) := by
  refine ⟨?_, ?_, ?_⟩
  · obtain ⟨h, popped, e, o, p⟩ := heap.run_spec IntHeap_heapOrder ops [] (HeapOn_nil _) hv
    refine ⟨h, popped, e, by simpa using p, fun hne => ⟨h.getD 0 0, IntHeap_Peek_eq h hne,
      root_mem h hne, minHeap_root_le h ((HeapOrdered_iff_HeapOn _ _).2 o)⟩⟩
  · obtain ⟨h, popped, e, o, p⟩ := heap.run_spec MinHeap_heapOrder ops [] (HeapOn_nil _) hv
    refine ⟨h, popped, e, by simpa using p, fun hne => ⟨h.getD 0 0,
      MinHeap_Peek_eq ⟨h⟩ (List.length_pos.2 hne),
      root_mem h hne, minHeap_root_le h ((HeapOrdered_iff_HeapOn _ _).2 o)⟩⟩
  · obtain ⟨h, popped, e, o, p⟩ := heap.run_spec MaxHeap_heapOrder ops [] (HeapOn_nil _) hv
    refine ⟨h, popped, e, by simpa using p, fun hne => ⟨h.getD 0 0,
      MaxHeap_Peek_eq ⟨h⟩ (List.length_pos.2 hne),
      root_mem h hne, maxHeap_root_ge h ((HeapOrdered_iff_HeapOn _ _).2 o)⟩⟩

theorem peek_is_extreme_witness :
    popsNonEmpty 0 [HeapOp.push 3, HeapOp.push 1, HeapOp.pop, HeapOp.push 2] = true ∧
    ∃ (h : IntHeap) (popped : List Int),
      heap.run MaxHeap.less [] [HeapOp.push 3, HeapOp.push 1, HeapOp.pop, HeapOp.push 2] =
        some (h, popped) ∧
      (h ++ popped).Perm (pushed [HeapOp.push 3, HeapOp.push 1, HeapOp.pop, HeapOp.push 2]) ∧
      (h ≠ [] → ∃ m : Int, MaxHeap.Peek ⟨h⟩ = some (m, ⟨h⟩) ∧ m ∈ h ∧ ∀ x ∈ h, x ≤ m) :=
  ⟨by decide,
    (peek_is_extreme [HeapOp.push 3, HeapOp.push 1, HeapOp.pop, HeapOp.push 2] (by decide)).2.2⟩

/-- C8. Inserting 2, 1, 5, 3, 7, -1, 6, 8, 11, 16 in this order into a fresh
`New()` and calling `Median()` returns `(5, nil)`. -/
theorem median_of_sample : medianOf [2, 1, 5, 3, 7, -1, 6, 8, 11, 16] = some (5, none) := by
  decide

/-- C9. The heap-order invariant in the parent view (every index in order with
its existing children `2i+1`, `2i+2`) is preserved by `heap.Push` and, on a
non-empty heap, by `heap.Pop`, for the min-heaps (`a[i] <= a[c]`) and for
`MaxHeap` (`a[i] >= a[c]`); and both heaps of every `MedianHeap` reached from
`New()` by `Insert` calls satisfy it. -/
theorem heap_order_preserved (a : IntHeap) (v : Int) :
    (isMinHeap a → isMinHeap (heap.Push MinHeap.less a v) ∧
      isMinHeap (heap.Push IntHeap.Less a v)) ∧
    (isMaxHeap a → isMaxHeap (heap.Push MaxHeap.less a v)) ∧
    (isMinHeap a → a ≠ [] →
      (∃ (r : Int) (a1 : IntHeap), heap.Pop MinHeap.less a = some (r, a1) ∧ isMinHeap a1) ∧
      (∃ (r : Int) (a1 : IntHeap), heap.Pop IntHeap.Less a = some (r, a1) ∧ isMinHeap a1)) ∧
    (isMaxHeap a → a ≠ [] →
      ∃ (r : Int) (a1 : IntHeap), heap.Pop MaxHeap.less a = some (r, a1) ∧ isMaxHeap a1) ∧
    (∀ xs : List Int, ∃ s : MedianHeap, insertAll xs = some s ∧
      isMaxHeap s.Max.IntHeap ∧ isMinHeap s.Min.IntHeap) := by
  refine ⟨?_, ?_, ?_, ?_, ?_⟩
  · intro h
    exact ⟨minHeap_Push MinHeap_heapOrder a v h, minHeap_Push IntHeap_heapOrder a v h⟩
  · intro h
    exact maxHeap_Push a v h
  · intro h hne
    obtain ⟨a1, e1, _, _, o1⟩ := minHeap_Pop MinHeap_heapOrder a hne h
    obtain ⟨a2, e2, _, _, o2⟩ := minHeap_Pop IntHeap_heapOrder a hne h
    exact ⟨⟨_, a1, e1, o1⟩, ⟨_, a2, e2, o2⟩⟩
  · intro h hne
    obtain ⟨a1, e1, _, _, o1⟩ := maxHeap_Pop a hne h
    exact ⟨_, a1, e1, o1⟩
  · intro xs
    obtain ⟨s, es, hi⟩ := insertAll_Inv xs
    exact ⟨s, es, hi.core.maxOrd, hi.core.minOrd⟩

theorem heap_order_preserved_witness :
    (isMinHeap [1, 3, 2] ∧ isMinHeap (heap.Push MinHeap.less [1, 3, 2] 0) ∧
      ∃ (r : Int) (a1 : IntHeap), heap.Pop MinHeap.less [1, 3, 2] = some (r, a1) ∧ isMinHeap a1) ∧
    (isMaxHeap [5, 3, 4] ∧ isMaxHeap (heap.Push MaxHeap.less [5, 3, 4] 9) ∧
      ∃ (r : Int) (a1 : IntHeap), heap.Pop MaxHeap.less [5, 3, 4] = some (r, a1) ∧ isMaxHeap a1) :=
  ⟨⟨by decide, ((heap_order_preserved [1, 3, 2] 0).1 (by decide)).1,
      ((heap_order_preserved [1, 3, 2] 0).2.2.1 (by decide) (by decide)).1⟩,
    ⟨by decide, (heap_order_preserved [5, 3, 4] 9).2.1 (by decide),
      (heap_order_preserved [5, 3, 4] 9).2.2.2.1 (by decide) (by decide)⟩⟩

/-- C10. For every `MedianHeap` state and every value that is not an int,
`Insert(value)` returns without a panic and leaves both heaps exactly as they
were (same contents, same lengths), so `Median()` gives the same result before
and after. -/
theorem insert_non_int_changes_nothing (s : MedianHeap) (value : GoAny)
    (h : ∀ v : Int, value ≠ GoAny.int v) :
    ∃ s1 : MedianHeap, s.Insert value = some s1 ∧
      s1.Max.IntHeap = s.Max.IntHeap ∧ s1.Min.IntHeap = s.Min.IntHeap ∧
      s1.Max.Len = s.Max.Len ∧ s1.Min.Len = s.Min.Len ∧ s1.Median = s.Median :=
  ⟨s, Insert_of_not_int s value h, rfl, rfl, rfl, rfl, rfl⟩

theorem insert_non_int_changes_nothing_witness :
    (∀ v : Int, GoAny.str "seven" ≠ GoAny.int v) ∧
    ∃ s1 : MedianHeap,
      MedianHeap.Insert ⟨⟨[6]⟩, ⟨[5, 3]⟩⟩ (GoAny.str "seven") = some s1 ∧
      s1.Max.IntHeap = [5, 3] ∧ s1.Min.IntHeap = [6] ∧
      s1.Max.Len = 2 ∧ s1.Min.Len = 1 ∧
      s1.Median = MedianHeap.Median ⟨⟨[6]⟩, ⟨[5, 3]⟩⟩ :=
  ⟨fun _ hh => GoAny.noConfusion hh,
    insert_non_int_changes_nothing ⟨⟨[6]⟩, ⟨[5, 3]⟩⟩ (GoAny.str "seven")
      (fun _ hh => GoAny.noConfusion hh)⟩



/-! ## Further facts about `heap.Pop`, the bootstrap and the balancing step -/

/-- On any non-empty slice, heap-ordered or not, `heap.Pop` does not panic, returns
the cell at index 0 and leaves a slice one shorter holding the other cells. -/
theorem heap.Pop_some (less : IntHeap → Nat → Nat → Bool) (h : IntHeap) (hne : h ≠ []) :
    ∃ h1 : IntHeap, heap.Pop less h = some (h.getD 0 0, h1) ∧ h1.length + 1 = h.length ∧
      h.Perm (h.getD 0 0 :: h1) := by
  have hpos : 0 < h.length := List.length_pos.2 hne
  obtain ⟨n, hn⟩ : ∃ n, h.length = n + 1 := ⟨h.length - 1, by omega⟩
  have hsl : (h.Swap 0 n).length = n + 1 := by rw [IntHeap.length_Swap, hn]
  have hdl : (heap.down less n (h.Swap 0 n) 0 n).length = n + 1 := by
    rw [heap.down_length, hsl]
  have hlast : (heap.down less n (h.Swap 0 n) 0 n).getD n 0 = h.getD 0 0 := by
    rw [heap.down_getD_ge less n _ 0 n (by omega) n (le_refl n),
      IntHeap.getD_Swap h hpos (by omega)]
    simp
  refine ⟨(heap.down less n (h.Swap 0 n) 0 n).take n, ?_, ?_, ?_⟩
  · unfold heap.Pop
    simp only [IntHeap.Len]
    rw [if_neg (by omega)]
    simp only [hn, Nat.add_sub_cancel]
    rw [IntHeap.Pop_eq _ n hdl, hlast]
  · rw [List.length_take, hdl, hn]; omega
  · have h1 : (heap.down less n (h.Swap 0 n) 0 n).Perm h :=
      (heap.down_perm less n _ 0 n (by omega)).trans (IntHeap.Swap_perm h hpos (by omega))
    have h2 := take_append_getD _ n hdl
    rw [hlast] at h2
    rw [h2] at h1
    exact (h1.symm.trans (List.perm_append_singleton _ _))

theorem wrap64_of_isInt64 (x : Int) (h : isInt64 x) : wrap64 x = x := by
  unfold wrap64
  unfold isInt64 minInt64 maxInt64 at h
  omega

theorem heap.Push_nil (less : IntHeap → Nat → Nat → Bool) (a : Int) :
    heap.Push less [] a = [a] := by
  simp [heap.Push, heap.up, IntHeap.Push, IntHeap.Len]

theorem MaxHeap_Push_singleton (a b : Int) :
    heap.Push MaxHeap.less [a] b = [max a b, min a b] := by
  by_cases h : b > a
  · have e : MaxHeap.less [a, b] 1 0 = true := by simp [MaxHeap.less, MaxHeap.Less, h]
    have : heap.Push MaxHeap.less [a] b = [b, a] := by
      simp [heap.Push, heap.up, IntHeap.Push, IntHeap.Len, IntHeap.Swap, e]
    rw [this, max_eq_right (le_of_lt h), min_eq_left (le_of_lt h)]
  · have e : MaxHeap.less [a, b] 1 0 = false := by simp [MaxHeap.less, MaxHeap.Less, h]
    have : heap.Push MaxHeap.less [a] b = [a, b] := by
      simp [heap.Push, heap.up, IntHeap.Push, IntHeap.Len, e]
    rw [this, max_eq_left (not_lt.1 h), min_eq_right (not_lt.1 h)]

/-- The first `Insert` on `New()` takes the early return: one push onto `Max`. -/
theorem Insert_first (a : Int) : New.Insert (GoAny.int a) = some ⟨⟨[]⟩, ⟨[a]⟩⟩ := by
  have : New.Insert (GoAny.int a) = some ⟨⟨[]⟩, ⟨heap.Push MaxHeap.less [] a⟩⟩ := rfl
  rw [this, heap.Push_nil]

/-- The second `Insert` takes the early return as well: one push onto `Max`. -/
theorem Insert_second (a b : Int) :
    MedianHeap.Insert ⟨⟨[]⟩, ⟨[a]⟩⟩ (GoAny.int b) = some ⟨⟨[]⟩, ⟨[max a b, min a b]⟩⟩ := by
  have : MedianHeap.Insert ⟨⟨[]⟩, ⟨[a]⟩⟩ (GoAny.int b) =
      some ⟨⟨[]⟩, ⟨heap.Push MaxHeap.less [a] b⟩⟩ := rfl
  rw [this, MaxHeap_Push_singleton]

theorem insertAll_two (a b : Int) :
    insertAll [a, b] = some ⟨⟨[]⟩, ⟨[max a b, min a b]⟩⟩ := by
  have : insertAll [a, b] = MedianHeap.Insert ⟨⟨[]⟩, ⟨[a]⟩⟩ (GoAny.int b) := by
    simp only [insertAll, List.map_cons, List.map_nil, MedianHeap.insertAny, Insert_first]
    cases MedianHeap.Insert ⟨⟨[]⟩, ⟨[a]⟩⟩ (GoAny.int b) <;> rfl
  rw [this, Insert_second]

theorem medianOf_two (a b : Int) : medianOf [a, b] = some (max a b, none) := by
  simp only [medianOf, insertAll_two]
  rfl

/-- When the first balancing branch is taken, the second test fails on the state
it leaves. -/
theorem rebalance_first_branch (h : MedianHeap) (h1 : h.Max.Len > h.Min.Len + 1) :
    ∃ (vv : Int) (d : IntHeap), heap.Pop MaxHeap.less h.Max.IntHeap = some (vv, d) ∧
      ¬ (MinHeap.Len ⟨heap.Push MinHeap.less h.Min.IntHeap vv⟩ > MaxHeap.Len ⟨d⟩ + 1) ∧
      h.rebalance = some { Min := ⟨heap.Push MinHeap.less h.Min.IntHeap vv⟩, Max := ⟨d⟩ } := by
  obtain ⟨⟨mn⟩, ⟨mx⟩⟩ := h
  simp only [MaxHeap.Len, MinHeap.Len, IntHeap.Len] at h1
  have hne : mx ≠ [] := by intro e; rw [e] at h1; simp at h1
  obtain ⟨d, e1, l1, _⟩ := heap.Pop_some MaxHeap.less mx hne
  have hl2 := heap.Push_length MinHeap.less mn (mx.getD 0 0)
  have hnot : ¬ (heap.Push MinHeap.less mn (mx.getD 0 0)).length > d.length + 1 := by
    rw [hl2]; omega
  refine ⟨mx.getD 0 0, d, e1, ?_, ?_⟩
  · simpa only [MaxHeap.Len, MinHeap.Len, IntHeap.Len] using hnot
  · unfold MedianHeap.rebalance
    simp only [MaxHeap.Len, MinHeap.Len, IntHeap.Len, if_pos h1, e1]
    rw [if_neg hnot]

theorem rebalance_eq_elseIf (h : MedianHeap) : h.rebalance = h.rebalanceElseIf := by
  by_cases h1 : h.Max.Len > h.Min.Len + 1
  · obtain ⟨vv, d, e1, _, e2⟩ := rebalance_first_branch h h1
    rw [e2]
    unfold MedianHeap.rebalanceElseIf
    rw [if_pos h1, e1]
  · unfold MedianHeap.rebalance MedianHeap.rebalanceElseIf
    simp only [if_neg h1]

theorem Insert_eq_elseIf (h : MedianHeap) (value : GoAny) :
    h.Insert value = h.InsertElseIf value := by
  unfold MedianHeap.Insert MedianHeap.InsertElseIf
  cases value with
  | int v =>
    simp only []
    split_ifs with c
    · rfl
    · cases h.Max.Peek with
      | none => rfl
      | some p => exact rebalance_eq_elseIf _
  | str _ => rfl
  | bool _ => rfl
  | nil => rfl

/-- In no state does `Median()` panic. -/
theorem Median_total (s : MedianHeap) : ∃ r : Int × GoError, s.Median = some r := by
  by_cases h0 : s.Max.Len = 0 ∧ s.Min.Len = 0
  · exact ⟨_, by unfold MedianHeap.Median; rw [if_pos h0]⟩
  · by_cases hgt : s.Max.Len > s.Min.Len
    · exact ⟨_, Median_max_longer s hgt⟩
    · by_cases hlt : s.Min.Len > s.Max.Len
      · exact ⟨_, Median_min_longer s hlt⟩
      · exact ⟨_, Median_equal s (by omega) (by omega)⟩

theorem sortAsc_eq_of_perm (xs ys : List Int) (h : xs.Perm ys) : sortAsc xs = sortAsc ys :=
  List.eq_of_perm_of_sorted (r := fun (a b : Int) => a ≤ b)
    ((sortAsc_perm xs).trans (h.trans (sortAsc_perm ys).symm)) (sortAsc_sorted xs)
    (sortAsc_sorted ys)

/-- Two ints: `Median()` is the upper one of the sorted pair. -/
theorem medianOf_len_two (xs : List Int) (h2 : xs.length = 2) :
    ∃ m : Int, medianOf xs = some (m, none) ∧ (sortAsc xs)[1]? = some m := by
  obtain ⟨s, es, ⟨hc, hz⟩⟩ := insertAll_Inv xs
  have hlen := Core_length s xs hc
  have hmed : medianOf xs = s.Median := by simp only [medianOf, es]
  have hM : s.Max.Len = 2 := by rcases hz with h | h <;> omega
  have hne : s.Max.IntHeap ≠ [] := ne_nil_of_Len_pos _ (by
    have : 0 < s.Max.Len := by omega
    simpa [MaxHeap.Len, IntHeap.Len] using this)
  refine ⟨s.Max.IntHeap.getD 0 0, ?_, ?_⟩
  · rw [hmed]; exact Median_max_longer s (by omega)
  · have := Core_max_root s xs hc hne
    rwa [hM] at this

theorem medianOf_perm (xs ys : List Int) (h : xs.Perm ys) : medianOf xs = medianOf ys := by
  have hs := sortAsc_eq_of_perm xs ys h
  have hl := h.length_eq
  by_cases h0 : xs.length = 0
  · have e1 : xs = [] := List.length_eq_zero.1 h0
    have e2 : ys = [] := List.length_eq_zero.1 (by omega)
    rw [e1, e2]
  · by_cases hodd : xs.length % 2 = 1
    · obtain ⟨m, e1, i1⟩ := medianOf_odd xs hodd
      obtain ⟨m2, e2, i2⟩ := medianOf_odd ys (by omega)
      rw [hs, hl, i2] at i1
      rw [e1, e2, Option.some.inj i1]
    · by_cases h2 : xs.length = 2
      · obtain ⟨m, e1, i1⟩ := medianOf_len_two xs h2
        obtain ⟨m2, e2, i2⟩ := medianOf_len_two ys (by omega)
        rw [hs, i2] at i1
        rw [e1, e2, Option.some.inj i1]
      · obtain ⟨lo, hi, a1, b1, e1⟩ := medianOf_even xs (by omega) (by omega)
        obtain ⟨lo2, hi2, a2, b2, e2⟩ := medianOf_even ys (by omega) (by omega)
        rw [hs, hl, a2] at a1
        rw [hs, hl, b2] at b1
        rw [e1, e2, Option.some.inj a1, Option.some.inj b1]



/-! ## The claims, continued -/

/-- C11. For every pair of ints `a`, `b` (so in either order), `Insert(a)` then
`Insert(b)` on a fresh `New()` are each a single `heap.Push` onto `Max` with no
balancing step, and afterwards `Max` holds exactly `a` and `b` (`Len` 2, the
larger one at the root) and `Min` is empty (`Len` 0). -/
theorem first_two_values_in_max (a b : Int) :
    New.Insert (GoAny.int a) = some ⟨⟨[]⟩, ⟨heap.Push MaxHeap.less [] a⟩⟩ ∧
    MedianHeap.Insert ⟨⟨[]⟩, ⟨heap.Push MaxHeap.less [] a⟩⟩ (GoAny.int b) =
      some ⟨⟨[]⟩, ⟨heap.Push MaxHeap.less (heap.Push MaxHeap.less [] a) b⟩⟩ ∧
    ∃ s : MedianHeap, insertAll [a, b] = some s ∧
      s.Max.IntHeap = [max a b, min a b] ∧ s.Max.IntHeap.Perm [a, b] ∧ s.Max.Len = 2 ∧
      s.Min.IntHeap = [] ∧ s.Min.Len = 0 := by
  refine ⟨?_, ?_, ⟨_, insertAll_two a b, rfl, ?_, rfl, rfl, rfl⟩⟩
  · rw [heap.Push_nil]; exact Insert_first a
  · rw [heap.Push_nil, MaxHeap_Push_singleton]; exact Insert_second a b
  · show [max a b, min a b].Perm [a, b]
    rcases le_total a b with h | h
    · rw [max_eq_right h, min_eq_left h]; exact List.Perm.swap a b []
    · rw [max_eq_left h, min_eq_right h]

/-- C12. The two heaps partition the inserted values: after any sequence of
`Insert` calls on a fresh `New()`, the contents of `Max` and `Min` together are,
as a multiset, exactly the ints that were inserted, and `Max.Len() + Min.Len()`
is their number. -/
theorem heaps_partition_inserted (xs : List Int) (vs : List GoAny) :
    (∃ s : MedianHeap, insertAll xs = some s ∧
      ((s.Max.IntHeap : Multiset Int) + (s.Min.IntHeap : Multiset Int) = (xs : Multiset Int)) ∧
      s.Max.Len + s.Min.Len = xs.length) ∧
    (∃ s : MedianHeap, New.insertAny vs = some s ∧
      ((s.Max.IntHeap : Multiset Int) + (s.Min.IntHeap : Multiset Int) =
        (ints vs : Multiset Int)) ∧
      s.Max.Len + s.Min.Len = (ints vs).length) := by
  constructor
  · obtain ⟨s, es, hi⟩ := insertAll_Inv xs
    refine ⟨s, es, ?_, Core_length s xs hi.core⟩
    rw [Multiset.coe_add, Multiset.coe_eq_coe]
    exact hi.core.perm
  · obtain ⟨s, es, hi⟩ := insertAll_Inv (ints vs)
    refine ⟨s, by rw [insertAny_ints]; exact es, ?_, Core_length s _ hi.core⟩
    rw [Multiset.coe_add, Multiset.coe_eq_coe]
    exact hi.core.perm

theorem pop_erase (a a1 : IntHeap) (hne : a ≠ []) (hp : a.Perm (a.getD 0 0 :: a1)) :
    a1.Perm (a.erase (a.getD 0 0)) :=
  (hp.symm.trans (List.perm_cons_erase (root_mem a hne))).cons_inv

/-- C13. On a heap-ordered non-empty heap `heap.Pop()` returns the value `Peek()`
returned just before (the root), and what remains is the previous contents minus
one occurrence of that value, `Len` one less; on a heap-ordered heap
`heap.Push(v)` makes the contents the previous ones plus `v`, `Len` one more.
For `IntHeap`, `MinHeap` and `MaxHeap`. -/
theorem pop_takes_root_push_adds (a : IntHeap) (v : Int) :
    (isMinHeap a → a ≠ [] → ∃ (r : Int) (a1 : IntHeap), IntHeap.Peek a = some (r, a) ∧
      heap.Pop IntHeap.Less a = some (r, a1) ∧ a1.Perm (a.erase r) ∧ a1.Len + 1 = a.Len) ∧
    (isMinHeap a → a ≠ [] → ∃ (r : Int) (a1 : IntHeap), MinHeap.Peek ⟨a⟩ = some (r, ⟨a⟩) ∧
      heap.Pop MinHeap.less a = some (r, a1) ∧ a1.Perm (a.erase r) ∧ a1.Len + 1 = a.Len) ∧
    (isMaxHeap a → a ≠ [] → ∃ (r : Int) (a1 : IntHeap), MaxHeap.Peek ⟨a⟩ = some (r, ⟨a⟩) ∧
      heap.Pop MaxHeap.less a = some (r, a1) ∧ a1.Perm (a.erase r) ∧ a1.Len + 1 = a.Len) ∧
    (isMinHeap a → (heap.Push IntHeap.Less a v).Perm (v :: a) ∧
      (heap.Push IntHeap.Less a v).Len = a.Len + 1) ∧
    (isMinHeap a → (heap.Push MinHeap.less a v).Perm (v :: a) ∧
      (heap.Push MinHeap.less a v).Len = a.Len + 1) ∧
    (isMaxHeap a → (heap.Push MaxHeap.less a v).Perm (v :: a) ∧
      (heap.Push MaxHeap.less a v).Len = a.Len + 1) := by
  refine ⟨?_, ?_, ?_, ?_, ?_, ?_⟩
  · intro _ hne
    obtain ⟨a1, e, l, p⟩ := heap.Pop_some IntHeap.Less a hne
    exact ⟨_, a1, IntHeap_Peek_eq a hne, e, pop_erase a a1 hne p, l⟩
  · intro _ hne
    obtain ⟨a1, e, l, p⟩ := heap.Pop_some MinHeap.less a hne
    exact ⟨_, a1, MinHeap_Peek_eq ⟨a⟩ (List.length_pos.2 hne), e, pop_erase a a1 hne p, l⟩
  · intro _ hne
    obtain ⟨a1, e, l, p⟩ := heap.Pop_some MaxHeap.less a hne
    exact ⟨_, a1, MaxHeap_Peek_eq ⟨a⟩ (List.length_pos.2 hne), e, pop_erase a a1 hne p, l⟩
  · intro _; exact ⟨heap.Push_perm _ a v, heap.Push_length _ a v⟩
  · intro _; exact ⟨heap.Push_perm _ a v, heap.Push_length _ a v⟩
  · intro _; exact ⟨heap.Push_perm _ a v, heap.Push_length _ a v⟩

theorem pop_takes_root_push_adds_witness :
    (isMaxHeap [5, 3, 4] ∧ ([5, 3, 4] : IntHeap) ≠ [] ∧
      ∃ (r : Int) (a1 : IntHeap), MaxHeap.Peek ⟨[5, 3, 4]⟩ = some (r, ⟨[5, 3, 4]⟩) ∧
        heap.Pop MaxHeap.less [5, 3, 4] = some (r, a1) ∧
        a1.Perm (List.erase [5, 3, 4] r) ∧ a1.Len + 1 = IntHeap.Len [5, 3, 4]) ∧
    (isMinHeap [1, 3, 2] ∧ (heap.Push MinHeap.less [1, 3, 2] 0).Perm (0 :: [1, 3, 2]) ∧
      (heap.Push MinHeap.less [1, 3, 2] 0).Len = IntHeap.Len [1, 3, 2] + 1) :=
  ⟨⟨by decide, by decide,
      (pop_takes_root_push_adds [5, 3, 4] 0).2.2.1 (by decide) (by decide)⟩,
    ⟨by decide, (pop_takes_root_push_adds [1, 3, 2] 0).2.2.2.2.1 (by decide)⟩⟩

/-- C14. At most one balancing branch fires per insertion: in every state, if the
first branch (`Max.Len() > Min.Len()+1`, move the `Max` root to `Min`) is taken,
the test of the second branch (`Min.Len() > Max.Len()+1`) is false on the state
it leaves; so the two sequential `if` statements of the source give the same
state as the `if ... else if` of the spec, for the balancing step and for every
`Insert`. -/
theorem one_balancing_branch (h : MedianHeap) (value : GoAny) :
    (h.Max.Len > h.Min.Len + 1 →
      ∃ (vv : Int) (d : IntHeap), heap.Pop MaxHeap.less h.Max.IntHeap = some (vv, d) ∧
        ¬ (MinHeap.Len ⟨heap.Push MinHeap.less h.Min.IntHeap vv⟩ > MaxHeap.Len ⟨d⟩ + 1) ∧
        h.rebalance = some { Min := ⟨heap.Push MinHeap.less h.Min.IntHeap vv⟩, Max := ⟨d⟩ }) ∧
    h.rebalance = h.rebalanceElseIf ∧
    h.Insert value = h.InsertElseIf value :=
  ⟨rebalance_first_branch h, rebalance_eq_elseIf h, Insert_eq_elseIf h value⟩

theorem one_balancing_branch_witness :
    MaxHeap.Len ⟨[5, 3, 4]⟩ > MinHeap.Len ⟨[6]⟩ + 1 ∧
    ∃ (vv : Int) (d : IntHeap), heap.Pop MaxHeap.less [5, 3, 4] = some (vv, d) ∧
      ¬ (MinHeap.Len ⟨heap.Push MinHeap.less [6] vv⟩ > MaxHeap.Len ⟨d⟩ + 1) ∧
      MedianHeap.rebalance ⟨⟨[6]⟩, ⟨[5, 3, 4]⟩⟩ =
        some { Min := ⟨heap.Push MinHeap.less [6] vv⟩, Max := ⟨d⟩ } :=
  ⟨by decide, (one_balancing_branch ⟨⟨[6]⟩, ⟨[5, 3, 4]⟩⟩ GoAny.nil).1 (by decide)⟩

/-- C15. With `Peek` and `Pop` on an empty heap modelled as an error (`none`):
in every state reached from `New()` by `Insert` calls, `Insert(v)` of any int
does not hit it; `Median()` hits it in no state at all, and on two empty heaps it
returns the error value instead of reading a root. -/
theorem no_read_or_pop_of_empty_heap :
    (IntHeap.Peek [] = none ∧ IntHeap.Pop [] = none ∧ heap.Pop MaxHeap.less [] = none ∧
      heap.Pop MinHeap.less [] = none) ∧
    (∀ vs : List GoAny, ∃ s : MedianHeap, New.insertAny vs = some s ∧
      ∀ v : Int, ∃ s1 : MedianHeap, s.Insert (GoAny.int v) = some s1) ∧
    (∀ s : MedianHeap, ∃ r : Int × GoError, s.Median = some r) ∧
    (∀ s : MedianHeap, s.Max.Len = 0 → s.Min.Len = 0 →
      s.Median = some (0, some "mean heap is empty")) := by
  refine ⟨⟨rfl, rfl, rfl, rfl⟩, ?_, Median_total, ?_⟩
  · intro vs
    obtain ⟨s, es, hi⟩ := insertAll_Inv (ints vs)
    refine ⟨s, by rw [insertAny_ints]; exact es, ?_⟩
    intro v
    obtain ⟨s1, e1, _⟩ := Insert_int_Inv s (ints vs) v hi
    exact ⟨s1, e1⟩
  · intro s h1 h2
    unfold MedianHeap.Median
    rw [if_pos ⟨h1, h2⟩]

theorem no_read_or_pop_of_empty_heap_witness :
    MedianHeap.Median ⟨⟨[]⟩, ⟨[]⟩⟩ = some (0, some "mean heap is empty") :=
  no_read_or_pop_of_empty_heap.2.2.2 ⟨⟨[]⟩, ⟨[]⟩⟩ rfl rfl

/-- C16. From the third insertion onward the sizes are balanced: after `k >= 3`
ints inserted into a fresh `New()`, `|Max.Len() - Min.Len()| <= 1` and
`Max.Len() >= 2`; and `Max.Len() < 2`, the test of the bootstrap branch, holds
exactly in the states reached by fewer than two insertions, so only the first
two insertions take that branch. -/
theorem balanced_from_third_insert (xs : List Int) (h3 : 3 ≤ xs.length) :
    (∃ s : MedianHeap, insertAll xs = some s ∧
      s.Max.Len ≤ s.Min.Len + 1 ∧ s.Min.Len ≤ s.Max.Len + 1 ∧ 2 ≤ s.Max.Len) ∧
    (∀ ys : List Int, ∃ s : MedianHeap, insertAll ys = some s ∧
      (s.Max.Len < 2 ↔ ys.length < 2)) := by
  constructor
  · obtain ⟨s, es, ⟨hc, hz⟩⟩ := insertAll_Inv xs
    have hlen := Core_length s xs hc
    refine ⟨s, es, ?_, ?_, ?_⟩ <;> rcases hz with h | h <;> omega
  · intro ys
    obtain ⟨s, es, ⟨hc, hz⟩⟩ := insertAll_Inv ys
    have hlen := Core_length s ys hc
    refine ⟨s, es, ?_⟩
    rcases hz with h | h <;> omega

theorem balanced_from_third_insert_witness :
    3 ≤ [4, 9, 1].length ∧
    ∃ s : MedianHeap, insertAll [4, 9, 1] = some s ∧
      s.Max.Len ≤ s.Min.Len + 1 ∧ s.Min.Len ≤ s.Max.Len + 1 ∧ 2 ≤ s.Max.Len :=
  ⟨by decide, (balanced_from_third_insert [4, 9, 1] (by decide)).1⟩



/-- C17. For every sequence of ints of even length `n >= 4` inserted into a fresh
`New()`, if the sum of the two middle elements of the sorted sequence fits in
the 64-bit `int` range, `Median()` returns that sum divided by 2 and rounded
toward zero; with middle elements -3 and -2 it returns -2, while the floor of
-5/2 is -3. -/
theorem median_even_rounds_toward_zero (xs : List Int) (heven : xs.length % 2 = 0)
    (h4 : 4 ≤ xs.length) (lo hi : Int)
    (hlo : (sortAsc xs)[xs.length / 2 - 1]? = some lo)
    (hhi : (sortAsc xs)[xs.length / 2]? = some hi) (hfit : isInt64 (lo + hi)) :
    medianOf xs = some (Int.tdiv (lo + hi) 2, none) ∧
    ((sortAsc [-3, -2, -4, -1])[1]? = some (-3) ∧ (sortAsc [-3, -2, -4, -1])[2]? = some (-2) ∧
      medianOf [-3, -2, -4, -1] = some (-2, none) ∧ Int.fdiv (-3 + -2) 2 = -3) := by
  refine ⟨?_, by decide⟩
  obtain ⟨lo1, hi1, a1, b1, e1⟩ := medianOf_even xs heven h4
  rw [hlo] at a1
  rw [hhi] at b1
  rw [e1, ← Option.some.inj a1, ← Option.some.inj b1, wrap64_of_isInt64 _ hfit]

theorem median_even_rounds_toward_zero_witness :
    [7, -4, -1, -2].length % 2 = 0 ∧ 4 ≤ [7, -4, -1, -2].length ∧
    (sortAsc [7, -4, -1, -2])[[7, -4, -1, -2].length / 2 - 1]? = some (-2) ∧
    (sortAsc [7, -4, -1, -2])[[7, -4, -1, -2].length / 2]? = some (-1) ∧
    isInt64 (-2 + -1) ∧
    medianOf [7, -4, -1, -2] = some (Int.tdiv (-2 + -1) 2, none) :=
  ⟨by decide, by decide, by decide, by decide, by decide,
    (median_even_rounds_toward_zero [7, -4, -1, -2] (by decide) (by decide) (-2) (-1)
      (by decide) (by decide) (by decide)).1⟩

/-- C18. For every pair of ints `a`, `b`, after `Insert(a)` and `Insert(b)` in
either order on a fresh `New()`, `Median()` returns `(max(a, b), nil)`: both
values are in `Max` (`Len` 2 against 0) and the result is the `Max` root. -/
theorem median_of_two_is_max (a b : Int) :
    medianOf [a, b] = some (max a b, none) ∧ medianOf [b, a] = some (max a b, none) ∧
    ∃ s : MedianHeap, insertAll [a, b] = some s ∧ s.Max.Len = 2 ∧ s.Min.Len = 0 ∧
      s.Max.Peek = some (max a b, s.Max) := by
  refine ⟨medianOf_two a b, ?_, ⟨_, insertAll_two a b, rfl, rfl, rfl⟩⟩
  rw [medianOf_two b a, max_comm]

/-- C19. With Go's `int` as a 64-bit two's-complement integer, the even-count
branch of `Median` adds the two roots with wrap-around before halving; after
four insertions of 9223372036854775807 the sum wraps to -2 and `Median()`
returns -1, which lies outside the interval between the two middle elements of
the sorted sequence. -/
theorem median_even_sum_wraps :
    (∀ s : MedianHeap, s.Max.Len = s.Min.Len → 0 < s.Max.Len →
      s.Median =
        some (Int.tdiv (wrap64 (s.Max.IntHeap.getD 0 0 + s.Min.IntHeap.getD 0 0)) 2, none)) ∧
    (isInt64 9223372036854775807 ∧ ¬ isInt64 (9223372036854775807 + 9223372036854775807) ∧
      wrap64 (9223372036854775807 + 9223372036854775807) = -2 ∧
      (sortAsc [9223372036854775807, 9223372036854775807, 9223372036854775807,
        9223372036854775807])[1]? = some 9223372036854775807 ∧
      (sortAsc [9223372036854775807, 9223372036854775807, 9223372036854775807,
        9223372036854775807])[2]? = some 9223372036854775807 ∧
      medianOf [9223372036854775807, 9223372036854775807, 9223372036854775807,
        9223372036854775807] = some (-1, none) ∧
      ¬ ((9223372036854775807 : Int) ≤ -1 ∧ (-1 : Int) ≤ 9223372036854775807)) :=
  ⟨Median_equal, by decide⟩

theorem median_even_sum_wraps_witness :
    MedianHeap.Median ⟨⟨[6]⟩, ⟨[5]⟩⟩ = some (Int.tdiv (wrap64 (5 + 6)) 2, none) :=
  median_even_sum_wraps.1 ⟨⟨[6]⟩, ⟨[5]⟩⟩ (by decide) (by decide)

/-- C20. The result of `Median()` does not depend on the insertion order: two
sequences of ints that are permutations of each other, each inserted into its
own fresh `New()`, give the same value and error; the split of the values
between the two heaps may differ, as for 1,2,3,4,5 and 5,4,3,2,1. -/
theorem median_order_independent (xs ys : List Int) (h : xs.Perm ys) :
    medianOf xs = medianOf ys ∧
    (insertAll [1, 2, 3, 4, 5] = some ⟨⟨[3, 4, 5]⟩, ⟨[2, 1]⟩⟩ ∧
      insertAll [5, 4, 3, 2, 1] = some ⟨⟨[4, 5]⟩, ⟨[3, 2, 1]⟩⟩ ∧
      medianOf [1, 2, 3, 4, 5] = medianOf [5, 4, 3, 2, 1]) :=
  ⟨medianOf_perm xs ys h, by decide⟩

theorem median_order_independent_witness :
    List.Perm [3, 1, 2, 8] [8, 2, 3, 1] ∧ medianOf [3, 1, 2, 8] = medianOf [8, 2, 3, 1] :=
  ⟨by decide, (median_order_independent [3, 1, 2, 8] [8, 2, 3, 1] (by decide)).1⟩

end MedianOnHeap
